import Mathlib

/-!
# mmd-physics: keyframe sampling, channel remapping and bone/rigid-body coupling

A shallow embedding of `src/src/motion.cc` (class `MotionImp`) and
`src/src/body.cc` (struct `Rigid`, class `BodyImp`).

Modelling conventions

* `float` / `btScalar` values are exact rationals (`ℚ`): rounding, infinities and NaN
  are not represented.  Rational division is total (`x / 0 = 0`).
* `int` indices and frame numbers are unbounded integers; index arithmetic such as
  `(l + r) / 2` is assumed not to wrap (sequences shorter than `2^30` entries).
* `std::vector` is `List`; a pointer that may be `NULL` is an `Option`.
* An element access outside the bounds of a vector (undefined behaviour in the
  source) makes the embedded operation return `none`.
* glm matrices are `Matrix (Fin 4) (Fin 4) ℚ` indexed `row, column`; the glm
  expression `m[c][r]` is the entry `m r c`.
* The collaborators that are not part of the sources (`Armature`, the physics
  solver, `glm::slerp`, the glm constructor `quat(vec3)`) are parameters.
-/

namespace MmdPhysics

/-! ## glm value types -/

/-- The glm type `vec3`. -/
structure Vec3 where
  x : ℚ
  y : ℚ
  z : ℚ
deriving DecidableEq, Repr

/-- The glm type `vec4`. -/
structure Vec4 where
  x : ℚ
  y : ℚ
  z : ℚ
  w : ℚ
deriving DecidableEq, Repr

/-- The glm type `quat`, built by `quat(w, x, y, z)`. -/
structure Quat where
  w : ℚ
  x : ℚ
  y : ℚ
  z : ℚ
deriving DecidableEq, Repr

/-- The glm type `mat4`. -/
abbrev Mat4 := Matrix (Fin 4) (Fin 4) ℚ

/-- Unary minus on `vec3`. -/
def Vec3.neg (v : Vec3) : Vec3 := ⟨-v.x, -v.y, -v.z⟩

/-- Component-wise sum of two `vec3`. -/
def Vec3.add (a b : Vec3) : Vec3 := ⟨a.x + b.x, a.y + b.y, a.z + b.z⟩

/-- Scalar `glm::mix(x, y, a) = x * (1 - a) + y * a`. -/
def mix (x y a : ℚ) : ℚ := x * (1 - a) + y * a

/-- Vector `glm::mix` with a scalar weight: component-wise `mix`. -/
def mixVec3 (p q : Vec3) (a : ℚ) : Vec3 := ⟨mix p.x q.x a, mix p.y q.y a, mix p.z q.z a⟩

/-- The matrix `glm::translate(v)`: the identity with translation column `v`. -/
def translate (v : Vec3) : Mat4 :=
  !![1, 0, 0, v.x;
     0, 1, 0, v.y;
     0, 0, 1, v.z;
     0, 0, 0, 1]

/-- The matrix `glm::mat4_cast(q)`: the rotation matrix of a quaternion, extended to 4x4. -/
def mat4_cast (q : Quat) : Mat4 :=
  !![1 - 2 * (q.y * q.y + q.z * q.z), 2 * (q.x * q.y - q.w * q.z), 2 * (q.x * q.z + q.w * q.y), 0;
     2 * (q.x * q.y + q.w * q.z), 1 - 2 * (q.x * q.x + q.z * q.z), 2 * (q.y * q.z - q.w * q.x), 0;
     2 * (q.x * q.z - q.w * q.y), 2 * (q.y * q.z + q.w * q.x), 1 - 2 * (q.x * q.x + q.y * q.y), 0;
     0, 0, 0, 1]

/-- The matrix `glm::inverse(m)`: the adjugate scaled by the reciprocal determinant. -/
def inverse (m : Mat4) : Mat4 := (Matrix.det m)⁻¹ • Matrix.adjugate m

/-- The translation column `vec3(m[3])` of a matrix. -/
def positionOf (m : Mat4) : Vec3 := ⟨m 0 3, m 1 3, m 2 3⟩

/-- The values of the 32-bit type `int`. -/
def IsInt32 (n : Int) : Prop := -2147483648 ≤ n ∧ n ≤ 2147483647

instance (n : Int) : Decidable (IsInt32 n) :=
  inferInstanceAs (Decidable (-2147483648 ≤ n ∧ n ≤ 2147483647))

/-- Conversion of a `float` to `int`: truncation toward zero.  The conversion of the
source is defined only when the truncated value is a value of `int`; the theorems that
depend on the value of the conversion carry the hypothesis `IsInt32 (truncInt q)` or a
bound on `q` that implies it. -/
def truncInt (q : ℚ) : Int := if 0 ≤ q then ⌊q⌋ else ⌈q⌉

/-! ## Model and motion data (read only) -/

namespace pmx

/-- The fields of a `pmx` bone that the sources read. -/
structure Bone where
  name : String
  position : Vec3
  parent : Int

/-- The field of a `pmx` morph that the sources read. -/
structure Morph where
  name : String

/-- The shape kinds of `pmx::Rigid` named by `Rigid::createRigid`; `other` stands for any
value of the field that is none of the three. -/
inductive RigidShape where
  | RigidBox
  | RigidSphere
  | RigidCapsule
  | other
deriving DecidableEq, Repr

/-- A rigid-body descriptor `pmx::Rigid`; `mode = 0` is kinematic. -/
structure Rigid where
  bone : Int
  group : Nat
  mask : Int
  shape : RigidShape
  size : Vec3
  position : Vec3
  rotation : Vec3
  mass : ℚ
  moveDamping : ℚ
  rotateDamping : ℚ
  repulsion : ℚ
  friction : ℚ
  mode : Int

/-- The parts of `pmx::Model` that the sources read. -/
structure Model where
  bones : List Bone
  morphs : List Morph
  rigids : List Rigid

end pmx

namespace vmd

/-- A bone keyframe `vmd::Keyframe`. -/
structure Keyframe where
  frame : Int
  position : Vec3
  rotation : Vec4
deriving DecidableEq, Repr

/-- A morph keyframe `vmd::Face`. -/
structure Face where
  frame : Int
  scalar : ℚ
deriving DecidableEq, Repr

/-- The parts of `vmd::Motion` that the sources read: two maps from a channel name to its
keyframe sequence, each given by its `find`. -/
structure Motion where
  bones : String → Option (List Keyframe)
  faces : String → Option (List Face)

end vmd

/-- Key types of the template `bisect`: anything with a `frame` member. -/
class HasFrame (K : Type) where
  frame : K → Int

instance : HasFrame vmd.Keyframe := ⟨vmd.Keyframe.frame⟩

instance : HasFrame vmd.Face := ⟨vmd.Face.frame⟩

/-! ## `MotionImp`: keyframe sampling -/

/-- The `while (r - l > 1)` loop of `MotionImp::bisect`, returning the final `(l, r)`. -/
def bisectLoop {K : Type} [HasFrame K] (keys : List K) (frame : Int) (l r : Nat) :
    Option (Nat × Nat) :=
  if r - l > 1 then
    let m := (l + r) / 2
    match keys[m]? with
    | none => none
    | some k =>
      if HasFrame.frame k ≤ frame then bisectLoop keys frame m r
      else bisectLoop keys frame l m
  else some (l, r)
termination_by r - l
decreasing_by all_goals omega

/-- The function `MotionImp::bisect`. -/
def bisect {K : Type} [HasFrame K] (remap : Option (List K)) (frame : Int) :
    Option (Int × Int) :=
  match remap with
  | none => some (-1, -1)
  | some keys =>
    let size := keys.length
    if size = 0 then some (-1, -1)
    else
      match bisectLoop keys frame 0 size with
      | none => none
      | some (l, r) => if r < size then some ((l : Int), (r : Int)) else some ((l : Int), (l : Int))

/-- The function `MotionImp::toMat4`. -/
def toMat4 (key : vmd.Keyframe) : Mat4 :=
  let ret := translate key.position
  let rot := key.rotation
  let q : Quat := ⟨rot.w, rot.x, rot.y, rot.z⟩
  ret * mat4_cast q

/-- The function `MotionImp::interBone`; `slerp` stands for `glm::slerp`. -/
def interBone (slerp : Quat → Quat → ℚ → Quat) (l r : vmd.Keyframe) (s : ℚ) : Mat4 :=
  let pos := l.position
  let rl := l.rotation
  let rr := r.rotation
  let q : Quat := ⟨rl.w, rl.x, rl.y, rl.z⟩
  let qr : Quat := ⟨rr.w, rr.x, rr.y, rr.z⟩
  let pos := mixVec3 pos r.position s
  let q := slerp q qr s
  translate pos * mat4_cast q

/-- The function `MotionImp::toFloat`. -/
def toFloat (face : vmd.Face) : ℚ := face.scalar

/-- The function `MotionImp::interFace`. -/
def interFace (l r : vmd.Face) (s : ℚ) : ℚ := mix l.scalar r.scalar s

/-- The function `MotionImp::getFrame`.  The `float` query frame is truncated to `int` for
the search and used untruncated for the interpolation parameter.  The division that
computes `s` is the total rational one: when both keys have the same frame the source
divides by zero and `s` is infinite or NaN, which this value does not represent, so the
theorems that state the value of `s` or of the blend assume the two frames differ. -/
def getFrame {K Q : Type} [HasFrame K] (remap : Option (List K)) (frame : ℚ)
    (trans : K → Q) (inter : K → K → ℚ → Q) (d : Q) : Option Q :=
  match bisect remap (truncInt frame) with
  | none => none
  | some res =>
    if res.1 ≥ 0 then
      match remap with
      | none => none
      | some keys =>
        match keys[res.1.toNat]? with
        | none => none
        | some l =>
          if res.1 = res.2 then some (trans l)
          else
            match keys[res.2.toNat]? with
            | none => none
            | some r =>
              let s := (frame - (HasFrame.frame l : ℚ)) /
                ((HasFrame.frame r : ℚ) - (HasFrame.frame l : ℚ))
              some (inter l r s)
    else some d

/-! ## Loops and vectors -/

/-- The remaining `k` iterations of a `for` loop `s = body(i, s); ++i` whose index is at `i`. -/
def forFrom {σ : Type} (body : Nat → σ → σ) : Nat → Nat → σ → σ
  | 0, _, s => s
  | k + 1, i, s => forFrom body k (i + 1) (body i s)

/-- The loop `for (int i = 0; i < n; ++i) s = body(i, s)`. -/
def forLoop {σ : Type} (n : Nat) (body : Nat → σ → σ) (s : σ) : σ := forFrom body n 0 s

/-- The loop `forFrom` with a body that can fail; the first failure ends the loop. -/
def forFromM {σ : Type} (body : Nat → σ → Option σ) : Nat → Nat → σ → Option σ
  | 0, _, s => some s
  | k + 1, i, s =>
    match body i s with
    | none => none
    | some s1 => forFromM body k (i + 1) s1

/-- The loop `for (int i = 0; i < n; ++i)` with a body that can fail. -/
def forLoopM {σ : Type} (n : Nat) (body : Nat → σ → Option σ) (s : σ) : Option σ :=
  forFromM body n 0 s

/-- The call `v.resize(n, d)` of `std::vector`: keep the first `n` elements, pad with `d`. -/
def resize {α : Type} (v : List α) (n : Nat) (d : α) : List α :=
  v.take n ++ List.replicate (n - v.length) d

/-! ## Transform utilities of `body.cc` -/

/-- Bullet `btTransform`: a basis (`basis i j` is `M[i][j]`, row `i`) and an origin. -/
structure BtTransform where
  basis : Matrix (Fin 3) (Fin 3) ℚ
  origin : Fin 3 → ℚ

/-- The glm constructor `mat4(a0, ..., a15)`: the sixteen values column after column. -/
def mat4OfColumns (c0 c1 c2 c3 : Fin 4 → ℚ) : Mat4 :=
  Matrix.of fun r c => (![c0, c1, c2, c3] c) r

/-- The glm element `m[c][r]`: column `c`, row `r`. -/
def glmAt (m : Mat4) (c r : Fin 4) : ℚ := m r c

/-- The function `bt2gl(const btTransform &)`. -/
def bt2gl (t : BtTransform) : Mat4 :=
  let T := t.origin
  let M := t.basis
  mat4OfColumns
    ![M 0 0, M 1 0, M 2 0, 0]
    ![M 0 1, M 1 1, M 2 1, 0]
    ![M 0 2, M 1 2, M 2 2, 0]
    ![T 0, T 1, T 2, 1]

/-- The function `gl2bt(const mat4 &)`; the `btMatrix3x3` constructor takes its rows. -/
def gl2bt (m : Mat4) : BtTransform :=
  { basis := !![glmAt m 0 0, glmAt m 1 0, glmAt m 2 0;
                glmAt m 0 1, glmAt m 1 1, glmAt m 2 1;
                glmAt m 0 2, glmAt m 1 2, glmAt m 2 2]
    origin := ![glmAt m 3 0, glmAt m 3 1, glmAt m 3 2] }

/-- The constant `maxSubstep`. -/
def maxSubstep : Int := 10

/-- The constant `frequency`. -/
def frequency : ℚ := 1 / 120

/-! ## External collaborators -/

/-- The interface `Armature` as `MotionImp` and `BodyImp` use it, over an armature state
`A`.  Its implementation is outside the sources, so its operations are parameters. -/
structure ArmatureOps (A : Type) where
  loadModel : A → pmx.Model → A
  reset : A → A
  resetPose : A → A
  applyLocal : A → Int → Mat4 → A
  solveIK : A → A
  skin : A → Int → Mat4
  global : A → Int → Mat4

/-- A Bullet collision shape as `Rigid::createRigid` builds it. -/
inductive BtShape where
  | box (halfExtents : Vec3)
  | sphere (radius : ℚ)
  | capsule (radius : ℚ) (height : ℚ)
deriving DecidableEq, Repr

/-- The state of a `btRigidBody` that `body.cc` sets: construction info, material, flags
and the accumulated force and torque. -/
structure BtRigidBody where
  mass : ℚ
  localInertia : Vec3
  restitution : ℚ
  friction : ℚ
  linearDamping : ℚ
  angularDamping : ℚ
  kinematicObject : Bool
  disableDeactivation : Bool
  totalForce : Vec3
  totalTorque : Vec3

/-- The method `btRigidBody::clearForces`. -/
def BtRigidBody.clearForces (b : BtRigidBody) : BtRigidBody :=
  { b with totalForce := ⟨0, 0, 0⟩, totalTorque := ⟨0, 0, 0⟩ }

/-- The Bullet library as `body.cc` uses it, over a dynamics-world state `W`.  The solver
is a black box: a step takes every body with its motion proxy and returns them updated. -/
structure BulletOps (W : Type) where
  calculateLocalInertia : BtShape → ℚ → Vec3
  addRigidBody : W → BtRigidBody → Int → Int → W
  removeRigidBody : W → BtRigidBody → W
  stepSimulation : W → ℚ → Int → ℚ → List (BtRigidBody × BtTransform) →
    W × List (BtRigidBody × BtTransform)

/-! ## `Rigid` and `BodyImp` -/

/-- The struct `Rigid` of `body.cc`.  `motion` is the world transform held by the motion
proxy; `shape` is absent while the pointer is `NULL`. -/
structure Rigid where
  base : pmx.Rigid
  bt : BtRigidBody
  shape : Option BtShape
  motion : BtTransform
  W0 : Mat4
  S0i : Mat4
  Ti : Mat4

/-- The function `Rigid::createRigid`, given the fields that `Rigid::load` has set. -/
def Rigid.createRigid {W : Type} (bullet : BulletOps W) (base : pmx.Rigid)
    (W0 S0i Ti : Mat4) : Option Rigid :=
  let shape : Option BtShape :=
    match base.shape with
    | .RigidBox => some (.box ⟨base.size.x / 2, base.size.y / 2, base.size.z / 2⟩)
    | .RigidSphere => some (.sphere (base.size.x / 2))
    | .RigidCapsule => some (.capsule base.size.x base.size.y)
    | .other => none
  let inert : Vec3 := ⟨0, 0, 0⟩
  let motion := gl2bt W0
  let kinematic : Bool := decide (base.mode = 0)
  let mass : ℚ := if kinematic then 0 else base.mass
  let inert? : Option Vec3 :=
    if mass > 0 then
      match shape with
      | none => none
      | some sh => some (bullet.calculateLocalInertia sh mass)
    else some inert
  match inert? with
  | none => none
  | some inert =>
    some
      { base := base
        bt :=
          { mass := mass
            localInertia := inert
            restitution := base.repulsion
            friction := base.friction
            linearDamping := base.moveDamping
            angularDamping := base.rotateDamping
            kinematicObject := kinematic
            disableDeactivation := true
            totalForce := ⟨0, 0, 0⟩
            totalTorque := ⟨0, 0, 0⟩ }
        shape := shape
        motion := motion
        W0 := W0
        S0i := S0i
        Ti := Ti }

/-- The function `Rigid::load`; `eulerQuat` stands for the glm constructor `quat(vec3)`. -/
def Rigid.load {W : Type} (bullet : BulletOps W) (eulerQuat : Vec3 → Quat)
    (model : pmx.Model) (index : Nat) : Option Rigid :=
  match model.rigids[index]? with
  | none => none
  | some base =>
    let W0 := translate base.position * mat4_cast (eulerQuat base.rotation)
    if base.bone ≥ 0 then
      match model.bones[base.bone.toNat]? with
      | none => none
      | some bone =>
        let p := Vec3.neg bone.position
        let p? : Option Vec3 :=
          if bone.parent ≥ 0 then
            match model.bones[bone.parent.toNat]? with
            | none => none
            | some parent => some (Vec3.add p parent.position)
          else some p
        match p? with
        | none => none
        | some p =>
          let Ti := translate p
          let S0i := inverse W0 * translate bone.position
          Rigid.createRigid bullet base W0 S0i Ti
    else
      let Ti : Mat4 := 1
      let S0i := inverse W0
      Rigid.createRigid bullet base W0 S0i Ti

/-- The class `BodyImp`: the model pointer, the bindings and the dynamics world.  The
armature it points to is owned by `MotionImp` and passed to the operations that use it. -/
structure BodyImp (W : Type) where
  model : Option pmx.Model
  rigids : List Rigid
  world : W

/-- The function `BodyImp::loadModel`.  The placeholders that `rigids.resize(n)` creates
are not represented: entry `i` exists once `rigids[i].load(model, i)` has filled it, so
the vector is rebuilt from empty and every entry of an earlier load is replaced, as in
the source.  The shift `1 << group` is computed without wrap-around; it is the source's
32-bit value for group indices below 31, which the theorems about the registered group
assume. -/
def BodyImp.loadModel {W : Type} (bullet : BulletOps W) (eulerQuat : Vec3 → Quat)
    (model : pmx.Model) (b : BodyImp W) : Option (BodyImp W) :=
  let n := model.rigids.length
  forLoopM n
    (fun i b =>
      match Rigid.load bullet eulerQuat model i with
      | none => none
      | some rg =>
        let group : Int := ((1 <<< rg.base.group : Nat) : Int)
        let mask : Int := rg.base.mask
        some
          { b with
            rigids := b.rigids ++ [rg]
            world := bullet.addRigidBody b.world rg.bt group mask })
    { b with model := some model, rigids := [] }

/-- The function `BodyImp::reset`. -/
def BodyImp.reset {W : Type} (bullet : BulletOps W) (b : BodyImp W) : BodyImp W :=
  let n := b.rigids.length
  let world :=
    forLoop n
      (fun i w =>
        match b.rigids[i]? with
        | none => w
        | some rg => bullet.removeRigidBody w rg.bt)
      b.world
  { b with rigids := [], world := world }

/-- The function `BodyImp::resetPose`. -/
def BodyImp.resetPose {W : Type} (b : BodyImp W) : BodyImp W :=
  let n := b.rigids.length
  { b with
    rigids :=
      forLoop n
        (fun i rigids =>
          match rigids[i]? with
          | none => rigids
          | some rg =>
            rigids.set i { rg with bt := rg.bt.clearForces, motion := gl2bt rg.W0 })
        b.rigids }

/-- The function `BodyImp::applyBone`. -/
def BodyImp.applyBone {A W : Type} (ops : ArmatureOps A) (arm : A) (b : BodyImp W) :
    BodyImp W :=
  let n := b.rigids.length
  { b with
    rigids :=
      forLoop n
        (fun i rigids =>
          match rigids[i]? with
          | none => rigids
          | some rg =>
            let bone := rg.base.bone
            if bone ≥ 0 ∧ rg.base.mode = 0 then
              let w := ops.skin arm bone * rg.W0
              rigids.set i { rg with motion := gl2bt w }
            else rigids)
        b.rigids }

/-- The function `BodyImp::stepSimulation`: the solver receives every binding's body and
motion proxy and returns their new states. -/
def BodyImp.stepSimulation {W : Type} (bullet : BulletOps W) (tick : ℚ) (b : BodyImp W) :
    BodyImp W :=
  let res := bullet.stepSimulation b.world tick maxSubstep frequency
    (b.rigids.map fun rg => (rg.bt, rg.motion))
  { b with
    world := res.1
    rigids :=
      forLoop b.rigids.length
        (fun i rigids =>
          match rigids[i]?, res.2[i]? with
          | some rg, some out => rigids.set i { rg with bt := out.1, motion := out.2 }
          | _, _ => rigids)
        b.rigids }

/-- The function `BodyImp::updateBone`; the result is the armature after the calls of
`applyLocal`. -/
def BodyImp.updateBone {A W : Type} (ops : ArmatureOps A) (b : BodyImp W) (arm : A) :
    Option A :=
  let n := b.rigids.length
  forLoopM n
    (fun i arm =>
      match b.rigids[i]? with
      | none => none
      | some rg =>
        let bone := rg.base.bone
        if bone ≥ 0 ∧ rg.base.mode ≠ 0 then
          let W := bt2gl rg.motion
          match b.model with
          | none => none
          | some model =>
            match model.bones[bone.toNat]? with
            | none => none
            | some bn =>
              let p := bn.parent
              let Pi : Mat4 := if p ≥ 0 then inverse (ops.global arm p) else 1
              let L := rg.Ti * Pi * W * rg.S0i
              some (ops.applyLocal arm bone L)
        else some arm)
    arm

/-- The function `BodyImp::update`. -/
def BodyImp.update {A W : Type} (ops : ArmatureOps A) (bullet : BulletOps W) (tick : ℚ)
    (b : BodyImp W) (arm : A) : Option (BodyImp W × A) :=
  let b := BodyImp.applyBone ops arm b
  let b := BodyImp.stepSimulation bullet tick b
  match BodyImp.updateBone ops b arm with
  | none => none
  | some arm => some (b, arm)

/-! ## `MotionImp`: state, remapping and the public operations -/

/-- The class `MotionImp`. -/
structure MotionImp (A W : Type) where
  model : Option pmx.Model
  motion : Option vmd.Motion
  armature : A
  body : BodyImp W
  boneRemap : List (Option (List vmd.Keyframe))
  faceRemap : List (Option (List vmd.Face))
  morph : List ℚ

/-- The template `MotionImp::remap(part, map, remap, tip)`; `name` reads `part[i].name` and
`map` is `map.find`. -/
def remapChannel {P T : Type} (name : P → String) (part : List P)
    (map : String → Option T) (remap : List (Option T)) : List (Option T) :=
  let n := part.length
  let remap := resize remap n none
  forLoop n
    (fun i remap =>
      match part[i]? with
      | none => remap
      | some p =>
        match map (name p) with
        | some x => remap.set i (some x)
        | none => remap)
    remap

namespace MotionImp

variable {A W : Type}

/-- The constructor `MotionImp(bool debug)`, given the freshly created armature and the
dynamics world that `BodyImp()` has set up. -/
def create (armature : A) (world : W) : MotionImp A W :=
  { model := none
    motion := none
    armature := armature
    body := { model := none, rigids := [], world := world }
    boneRemap := []
    faceRemap := []
    morph := [] }

/-- The function `MotionImp::remap()`, for the model and motion that the pointers hold. -/
def remap (model : pmx.Model) (motion : vmd.Motion) (s : MotionImp A W) : MotionImp A W :=
  { s with
    boneRemap := remapChannel pmx.Bone.name model.bones motion.bones s.boneRemap
    faceRemap := remapChannel pmx.Morph.name model.morphs motion.faces s.faceRemap }

/-- The function `MotionImp::unmap`. -/
def unmap (s : MotionImp A W) : MotionImp A W :=
  { s with boneRemap := [], faceRemap := [] }

/-- The function `MotionImp::resetModel`. -/
def resetModel (ops : ArmatureOps A) (bullet : BulletOps W) (s : MotionImp A W) :
    MotionImp A W :=
  let s := unmap s
  { s with
    armature := ops.reset s.armature
    body := BodyImp.reset bullet s.body
    morph := []
    model := none }

/-- The function `MotionImp::loadModel`. -/
def loadModel (ops : ArmatureOps A) (bullet : BulletOps W) (m : pmx.Model)
    (s : MotionImp A W) : MotionImp A W :=
  let s := if s.model.isSome then resetModel ops bullet s else s
  let s := { s with model := some m }
  let s := { s with armature := ops.loadModel s.armature m }
  let s := { s with morph := resize s.morph m.morphs.length 0 }
  match s.motion with
  | some v => remap m v s
  | none => s

/-- The function `MotionImp::resetPose`. -/
def resetPose (ops : ArmatureOps A) (s : MotionImp A W) : MotionImp A W :=
  match s.model with
  | none => s
  | some model =>
    { s with
      armature := ops.resetPose s.armature
      body := BodyImp.resetPose s.body
      morph := List.replicate model.morphs.length 0 }

/-- The function `MotionImp::resetMotion`. -/
def resetMotion (ops : ArmatureOps A) (s : MotionImp A W) : MotionImp A W :=
  let s := unmap s
  let s := resetPose ops s
  { s with motion := none }

/-- The function `MotionImp::loadMotion`. -/
def loadMotion (ops : ArmatureOps A) (m : vmd.Motion) (s : MotionImp A W) : MotionImp A W :=
  let s := if s.motion.isSome then resetMotion ops s else s
  let s := { s with motion := some m }
  match s.model with
  | some model => remap model m s
  | none => s

/-- The function `MotionImp::reset`. -/
def reset (ops : ArmatureOps A) (bullet : BulletOps W) (s : MotionImp A W) : MotionImp A W :=
  let s := unmap s
  { s with
    armature := ops.reset s.armature
    body := BodyImp.reset bullet s.body
    morph := []
    model := none
    motion := none }

/-- The function `MotionImp::updateKey`. -/
def updateKey (ops : ArmatureOps A) (slerp : Quat → Quat → ℚ → Quat) (frame : ℚ)
    (s : MotionImp A W) : Option (MotionImp A W) :=
  let n := s.boneRemap.length
  let armature? :=
    forLoopM n
      (fun i arm =>
        match s.boneRemap[i]? with
        | none => none
        | some channel =>
          match getFrame channel frame toMat4 (interBone slerp) (1 : Mat4) with
          | none => none
          | some tr => some (ops.applyLocal arm (i : Int) tr))
      s.armature
  match armature? with
  | none => none
  | some arm =>
    let arm := ops.solveIK arm
    let n := s.faceRemap.length
    let morph? :=
      forLoopM n
        (fun i morph =>
          match s.faceRemap[i]? with
          | none => none
          | some channel =>
            match getFrame channel frame toFloat interFace (0 : ℚ) with
            | none => none
            | some v => if i < morph.length then some (morph.set i v) else none)
        s.morph
    match morph? with
    | none => none
    | some morph => some { s with armature := arm, morph := morph }

end MotionImp

/-- The public operations of `Motion` that act on the remap tables or read them. -/
inductive MotionOp where
  | loadModel (m : pmx.Model)
  | loadMotion (m : vmd.Motion)
  | resetPose
  | resetMotion
  | resetModel
  | reset
  | updateKey (frame : ℚ)

/-- One call of a public operation; `none` when the call makes an out-of-bounds access. -/
def MotionImp.step {A W : Type} (ops : ArmatureOps A) (bullet : BulletOps W)
    (slerp : Quat → Quat → ℚ → Quat) (s : MotionImp A W) : MotionOp → Option (MotionImp A W)
  | .loadModel m => some (MotionImp.loadModel ops bullet m s)
  | .loadMotion m => some (MotionImp.loadMotion ops m s)
  | .resetPose => some (MotionImp.resetPose ops s)
  | .resetMotion => some (MotionImp.resetMotion ops s)
  | .resetModel => some (MotionImp.resetModel ops bullet s)
  | .reset => some (MotionImp.reset ops bullet s)
  | .updateKey frame => MotionImp.updateKey ops slerp frame s

/-- A sequence of calls, left to right; `none` as soon as one call fails. -/
def MotionImp.run {A W : Type} (ops : ArmatureOps A) (bullet : BulletOps W)
    (slerp : Quat → Quat → ℚ → Quat) (s : MotionImp A W) : List MotionOp → Option (MotionImp A W)
  | [] => some s
  | op :: rest =>
    match MotionImp.step ops bullet slerp s op with
    | none => none
    | some s1 => MotionImp.run ops bullet slerp s1 rest

/-- The remap table of the specification: entry `i` is the sequence that the motion holds
under the name of model part `i`, absent when the motion has no such name. -/
def remapTable {P T : Type} (name : P → String) (part : List P) (map : String → Option T) :
    List (Option T) :=
  part.map fun p => map (name p)

/-- The calls `applyLocal(i, ts[0])`, `applyLocal(i + 1, ts[1])`, ... in this order. -/
def applyLocals {A : Type} (ops : ArmatureOps A) : A → Nat → List Mat4 → A
  | arm, _, [] => arm
  | arm, i, t :: ts => applyLocals ops (ops.applyLocal arm (i : Int) t) (i + 1) ts

/-! ## Specification-level descriptions of the coupling loops -/

/-- A binding that `applyBone` drives: bone-linked and kinematic. -/
def Rigid.isKinematicLinked (rg : Rigid) : Prop := 0 ≤ rg.base.bone ∧ rg.base.mode = 0

instance (rg : Rigid) : Decidable rg.isKinematicLinked :=
  inferInstanceAs (Decidable (0 ≤ rg.base.bone ∧ rg.base.mode = 0))

/-- A binding that `updateBone` reads: bone-linked and not kinematic. -/
def Rigid.isPhysicsLinked (rg : Rigid) : Prop := 0 ≤ rg.base.bone ∧ rg.base.mode ≠ 0

instance (rg : Rigid) : Decidable rg.isPhysicsLinked :=
  inferInstanceAs (Decidable (0 ≤ rg.base.bone ∧ rg.base.mode ≠ 0))

/-- The inverse parent transform `Pi` of the specification for bone `bone`: the inverse of
the armature's world transform of the parent, the identity when there is no parent. -/
def parentInverse {A : Type} (ops : ArmatureOps A) (model : pmx.Model) (arm : A) (bone : Int) :
    Mat4 :=
  match model.bones[bone.toNat]? with
  | none => 1
  | some bn => if 0 ≤ bn.parent then inverse (ops.global arm bn.parent) else 1

/-- The bone-local transform `Ti * Pi * W * S0i` of the specification for one binding. -/
def boneLocal {A : Type} (ops : ArmatureOps A) (model : pmx.Model) (arm : A) (rg : Rigid) :
    Mat4 :=
  rg.Ti * parentInverse ops model arm rg.base.bone * bt2gl rg.motion * rg.S0i

/-- The pose pull of the specification: one `applyLocal(bone, Ti * Pi * W * S0i)` for each
bone-linked, non-kinematic binding, in binding order, and nothing for the others. -/
def updateBoneSpec {A : Type} (ops : ArmatureOps A) (model : pmx.Model) (rigids : List Rigid)
    (arm : A) : A :=
  (rigids.filter fun rg => decide rg.isPhysicsLinked).foldl
    (fun a rg => ops.applyLocal a rg.base.bone (boneLocal ops model a rg)) arm

/-- An armature that records the calls of `applyLocal` and whose bones all sit at the
origin: a sample instance of the `Armature` parameter. -/
def recordingArmature : ArmatureOps (List (Int × Mat4)) :=
  { loadModel := fun a _ => a
    reset := fun _ => []
    resetPose := fun a => a
    applyLocal := fun a i t => a ++ [(i, t)]
    solveIK := fun a => a
    skin := fun _ _ => 1
    global := fun _ _ => 1 }

/-- A solver that leaves every body where it is: a sample instance of the Bullet
parameter, over a world that counts its registered bodies. -/
def idleBullet : BulletOps Nat :=
  { calculateLocalInertia := fun _ _ => ⟨0, 0, 0⟩
    addRigidBody := fun w _ _ _ => w + 1
    removeRigidBody := fun w _ => w - 1
    stepSimulation := fun w _ _ _ bodies => (w, bodies) }

/-- The state invariant of `MotionImp`: the remap tables are empty unless a model and a
motion are both loaded, in which case they are the tables of exactly that pair; and the
morph vector has one weight per morph of the loaded model. -/
def MotionImp.Inv {A W : Type} (s : MotionImp A W) : Prop :=
  ((s.model = none ∨ s.motion = none) → s.boneRemap = [] ∧ s.faceRemap = []) ∧
  (∀ m v, s.model = some m → s.motion = some v →
    s.boneRemap = remapTable pmx.Bone.name m.bones v.bones ∧
      s.faceRemap = remapTable pmx.Morph.name m.morphs v.faces) ∧
  (∀ m, s.model = some m → s.morph.length = m.morphs.length)

/-- A motion with a bone channel `tail` and a morph channel `smile`. -/
def sampleMotion : vmd.Motion :=
  { bones := fun name =>
      if name = "tail" then
        some [⟨0, ⟨0, 0, 0⟩, ⟨0, 0, 0, 1⟩⟩, ⟨10, ⟨10, 0, 0⟩, ⟨0, 0, 0, 1⟩⟩]
      else none
    faces := fun name => if name = "smile" then some [⟨0, 1⟩, ⟨10, 3⟩, ⟨20, 2⟩] else none }

/-- The transform that `updateKey` samples for a bone channel (`getFrame` never fails, see
`getFrame_total`). -/
def boneSample (slerp : Quat → Quat → ℚ → Quat) (frame : ℚ)
    (channel : Option (List vmd.Keyframe)) : Mat4 :=
  (getFrame channel frame toMat4 (interBone slerp) (1 : Mat4)).getD 1

/-- The weight that `updateKey` samples for a morph channel. -/
def faceSample (frame : ℚ) (channel : Option (List vmd.Face)) : ℚ :=
  (getFrame channel frame toFloat interFace (0 : ℚ)).getD 0

/-- Frame number of the key at index `i` of a sequence (zero outside the sequence). -/
def frameAt {K : Type} [HasFrame K] (keys : List K) (i : Nat) : Int :=
  match keys[i]? with
  | some k => HasFrame.frame k
  | none => 0

/-- A sequence sorted ascending by frame (equal frames allowed). -/
def SortedByFrame {K : Type} [HasFrame K] (keys : List K) : Prop :=
  keys.Pairwise (fun a b => HasFrame.frame a ≤ HasFrame.frame b)

/-- A sequence with strictly ascending frames. -/
def StrictByFrame {K : Type} [HasFrame K] (keys : List K) : Prop :=
  keys.Pairwise (fun a b => HasFrame.frame a < HasFrame.frame b)

/-! ## Sample data -/

/-- A morph channel with keyframes at frames 0, 10 and 20. -/
def sampleFaces : List vmd.Face := [⟨0, 1⟩, ⟨10, 3⟩, ⟨20, 2⟩]

/-- A morph channel whose first keyframe is at frame 10, the second at frame 20. -/
def lateFaces : List vmd.Face := [⟨10, 1⟩, ⟨20, 3⟩]

/-- A bone channel with keyframes at frames 0 and 10, positions `(0,0,0)` and `(10,0,0)`,
both with the identity rotation. -/
def sampleBones : List vmd.Keyframe := [⟨0, ⟨0, 0, 0⟩, ⟨0, 0, 0, 1⟩⟩, ⟨10, ⟨10, 0, 0⟩, ⟨0, 0, 0, 1⟩⟩]

/-- Component-wise linear blend of two quaternions, a sample instance of the `slerp`
parameter. -/
def lerpQuat (a b : Quat) (s : ℚ) : Quat :=
  ⟨mix a.w b.w s, mix a.x b.x s, mix a.y b.y s, mix a.z b.z s⟩

/-- A model with two bones (`root`, and `tail` whose parent is `root`), one morph and two
rigid-body descriptors on `tail`: a kinematic one and a dynamic one. -/
def sampleModel : pmx.Model :=
  { bones := [⟨"root", ⟨0, 0, 0⟩, -1⟩, ⟨"tail", ⟨0, 1, 0⟩, 0⟩]
    morphs := [⟨"smile"⟩]
    rigids :=
      [⟨1, 0, 65535, .RigidSphere, ⟨1, 1, 1⟩, ⟨0, 1, 0⟩, ⟨0, 0, 0⟩, 1, 0, 0, 0, 0, 0⟩,
       ⟨1, 0, 65535, .RigidSphere, ⟨1, 1, 1⟩, ⟨0, 1, 0⟩, ⟨0, 0, 0⟩, 1, 0, 0, 0, 0, 1⟩] }

/-- A Bullet body with the given mass and everything else zero. -/
def sampleBtBody (mass : ℚ) (kinematic : Bool) : BtRigidBody :=
  ⟨mass, ⟨0, 0, 0⟩, 0, 0, 0, 0, kinematic, true, ⟨0, 0, 0⟩, ⟨0, 0, 0⟩⟩

/-- A binding for descriptor `base` at the identity bind pose. -/
def sampleRigid (base : pmx.Rigid) (kinematic : Bool) : Rigid :=
  { base := base
    bt := sampleBtBody (if kinematic then 0 else base.mass) kinematic
    shape := some (.sphere (1 / 2))
    motion := gl2bt 1
    W0 := 1
    S0i := 1
    Ti := 1 }

/-- A body holding one kinematic and one dynamic binding of `sampleModel`, both on bone 1. -/
def sampleBody : BodyImp Nat :=
  { model := some sampleModel
    rigids :=
      [sampleRigid ⟨1, 0, 65535, .RigidSphere, ⟨1, 1, 1⟩, ⟨0, 1, 0⟩, ⟨0, 0, 0⟩, 1, 0, 0, 0, 0, 0⟩ true,
       sampleRigid ⟨1, 0, 65535, .RigidSphere, ⟨1, 1, 1⟩, ⟨0, 1, 0⟩, ⟨0, 0, 0⟩, 1, 0, 0, 0, 0, 1⟩ false]
    world := 2 }

/-- The state after `loadModel(sampleModel)` and `loadMotion(sampleMotion)` on a fresh
`MotionImp` over the recording armature and the idle solver. -/
def sampleLoaded : MotionImp (List (Int × Mat4)) Nat :=
  MotionImp.loadMotion recordingArmature sampleMotion
    (MotionImp.loadModel recordingArmature idleBullet sampleModel (MotionImp.create [] 0))

/-- A sorted morph channel in which the first two keyframes share frame 5. -/
def tiedFaces : List vmd.Face := [⟨5, 1⟩, ⟨5, 2⟩, ⟨10, 3⟩]

/-- A sorted bone channel in which both keyframes share frame 5. -/
def tiedBones : List vmd.Keyframe := [⟨5, ⟨1, 0, 0⟩, ⟨0, 0, 0, 1⟩⟩, ⟨5, ⟨2, 0, 0⟩, ⟨0, 0, 0, 1⟩⟩]

/-- The identity rotation for every Euler triple: a sample instance of the `quat(vec3)`
parameter. -/
def sampleEulerQuat : Vec3 → Quat := fun _ => ⟨1, 0, 0, 0⟩

/-- A solver-less Bullet whose world records the `(group, mask)` pair of every
`addRigidBody`: a sample instance of the Bullet parameter. -/
def recordingBullet : BulletOps (List (Int × Int)) :=
  { calculateLocalInertia := fun _ _ => ⟨0, 0, 0⟩
    addRigidBody := fun w _ group mask => w ++ [(group, mask)]
    removeRigidBody := fun w _ => w.dropLast
    stepSimulation := fun w _ _ _ bodies => (w, bodies) }

/-- A model whose only rigid-body descriptor is unbonded, dynamic (`mode = 1`), in
collision group 3 and of mass 0. -/
def masslessModel : pmx.Model :=
  { bones := []
    morphs := []
    rigids := [⟨-1, 3, 65535, .RigidSphere, ⟨1, 1, 1⟩, ⟨0, 0, 0⟩, ⟨0, 0, 0⟩, 0, 0, 0, 0, 0, 1⟩] }

/-! ## `MotionImp`: the physics-side public operations -/

/-- The function `MotionImp::loadBody`; with no model loaded, `BodyImp::loadModel`
dereferences a null pointer. -/
def MotionImp.loadBody {A W : Type} (bullet : BulletOps W) (eulerQuat : Vec3 → Quat)
    (s : MotionImp A W) : Option (MotionImp A W) :=
  match s.model with
  | none => none
  | some model =>
    match BodyImp.loadModel bullet eulerQuat model s.body with
    | none => none
    | some body => some { s with body := body }

/-- The function `MotionImp::resetPhysics`. -/
def MotionImp.resetPhysics {A W : Type} (s : MotionImp A W) : MotionImp A W :=
  { s with body := BodyImp.resetPose s.body }

/-- The function `MotionImp::updatePhysics`. -/
def MotionImp.updatePhysics {A W : Type} (ops : ArmatureOps A) (bullet : BulletOps W)
    (tick : ℚ) (s : MotionImp A W) : Option (MotionImp A W) :=
  match BodyImp.update ops bullet tick s.body s.armature with
  | none => none
  | some res => some { s with body := res.1, armature := res.2 }

/-- The public operations of `Motion`: those of `MotionOp` and the physics-side ones.
`updateGlobal` is left out, since `BodyImp::applyGlobal` is not part of the sources. -/
inductive MotionCall where
  | op (o : MotionOp)
  | loadBody
  | resetPhysics
  | updatePhysics (tick : ℚ)

/-- One call of a public operation; `none` when the call fails. -/
def MotionImp.call {A W : Type} (ops : ArmatureOps A) (bullet : BulletOps W)
    (slerp : Quat → Quat → ℚ → Quat) (eulerQuat : Vec3 → Quat) (s : MotionImp A W) :
    MotionCall → Option (MotionImp A W)
  | .op o => MotionImp.step ops bullet slerp s o
  | .loadBody => MotionImp.loadBody bullet eulerQuat s
  | .resetPhysics => some (MotionImp.resetPhysics s)
  | .updatePhysics tick => MotionImp.updatePhysics ops bullet tick s

/-- A sequence of calls, left to right; `none` as soon as one call fails. -/
def MotionImp.runCalls {A W : Type} (ops : ArmatureOps A) (bullet : BulletOps W)
    (slerp : Quat → Quat → ℚ → Quat) (eulerQuat : Vec3 → Quat) (s : MotionImp A W) :
    List MotionCall → Option (MotionImp A W)
  | [] => some s
  | c :: rest =>
    match MotionImp.call ops bullet slerp eulerQuat s c with
    | none => none
    | some s1 => MotionImp.runCalls ops bullet slerp eulerQuat s1 rest

/-- The pose invariant of `MotionImp`: the invariant `Inv`, and without a model there are
no morph weights and no rigid bindings. -/
def MotionImp.PoseInv {A W : Type} (s : MotionImp A W) : Prop :=
  s.Inv ∧ (s.model = none → s.morph = [] ∧ s.body.rigids = [])

/-- A descriptor that `Rigid::load` can load without an invalid access: its bone index,
when it has one, and that bone's parent index, when it has one, are indices of
`model.bones`; and a body of positive mass has one of the three shapes that
`createRigid` builds. -/
def Loadable (model : pmx.Model) (base : pmx.Rigid) : Prop :=
  (0 ≤ base.bone →
    ∃ bn : pmx.Bone, model.bones[base.bone.toNat]? = some bn ∧
      (0 ≤ bn.parent → ∃ pb : pmx.Bone, model.bones[bn.parent.toNat]? = some pb)) ∧
  (base.shape = .other → base.mode = 0 ∨ base.mass ≤ 0)

/-- The part of a binding that `Rigid::load` fixes: the descriptor and the transforms
`W0`, `S0i` and `Ti`. -/
def Rigid.bindData (rg : Rigid) : pmx.Rigid × Mat4 × Mat4 × Mat4 :=
  (rg.base, rg.W0, rg.S0i, rg.Ti)

/-- Two bodies hold the same bindings up to the state that the simulation changes (the
Bullet body and the motion proxy): same number, and the same descriptor, `W0`, `S0i` and
`Ti` at every index. -/
def SameBindings {W : Type} (b1 b2 : BodyImp W) : Prop :=
  b2.rigids.map Rigid.bindData = b1.rigids.map Rigid.bindData

/-- The body `b` with every motion proxy moved to the transform `t`. -/
def BodyImp.withProxies {W : Type} (b : BodyImp W) (t : BtTransform) : BodyImp W :=
  { b with rigids := b.rigids.map fun rg => { rg with motion := t } }

/-! ## Theorems -/

theorem getElem?_last_eq_getLast {K : Type} (keys : List K) (hne : keys ≠ []) :
    keys[keys.length - 1]? = some (keys.getLast hne) := by
  have hpos : 0 < keys.length := List.length_pos.mpr hne
  rw [List.getElem?_eq_getElem (by omega), List.getLast_eq_getElem]

section Bisect

variable {K : Type} [HasFrame K]

theorem frameAt_of_getElem? {keys : List K} {i : Nat} {k : K} (h : keys[i]? = some k) :
    frameAt keys i = HasFrame.frame k := by
  simp [frameAt, h]

/-- The search loop always ends on an adjacent pair inside the initial window; the left
index either never moved or passed the test, and likewise the right index. -/
theorem bisectLoop_spec (keys : List K) (f : Int) :
    ∀ (n l r : Nat), r - l = n → l < r → r ≤ keys.length →
      ∃ l1, bisectLoop keys f l r = some (l1, l1 + 1) ∧ l ≤ l1 ∧ l1 + 1 ≤ r ∧
        (l1 = l ∨ frameAt keys l1 ≤ f) ∧ (l1 + 1 = r ∨ f < frameAt keys (l1 + 1)) := by
  intro n
  induction n using Nat.strong_induction_on with
  | _ n ih =>
    intro l r hn hlr hr
    rw [bisectLoop]
    by_cases hgap : r - l > 1
    · have hm : (l + r) / 2 < keys.length := by omega
      obtain ⟨k, hk⟩ : ∃ k, keys[(l + r) / 2]? = some k :=
        ⟨keys[(l + r) / 2], List.getElem?_eq_getElem hm⟩
      simp only [hgap, if_true, hk]
      by_cases hle : HasFrame.frame k ≤ f
      · simp only [hle, if_true]
        obtain ⟨l1, h1, h2, h3, h4, h5⟩ :=
          ih (r - (l + r) / 2) (by omega) ((l + r) / 2) r rfl (by omega) hr
        refine ⟨l1, h1, by omega, h3, ?_, h5⟩
        rcases h4 with h4 | h4
        · right
          rw [h4, frameAt_of_getElem? hk]
          exact hle
        · exact Or.inr h4
      · simp only [hle, if_false]
        obtain ⟨l1, h1, h2, h3, h4, h5⟩ :=
          ih ((l + r) / 2 - l) (by omega) l ((l + r) / 2) rfl (by omega) (by omega)
        refine ⟨l1, h1, h2, by omega, h4, ?_⟩
        rcases h5 with h5 | h5
        · right
          rw [h5, frameAt_of_getElem? hk]
          omega
        · exact Or.inr h5
    · simp only [hgap, if_false]
      exact ⟨l, by congr 2; omega, le_refl l, by omega, Or.inl rfl, Or.inl (by omega)⟩

/-- Outcome of `bisect` on a non-empty sequence, sorted or not: a left index `l` that is
either `0` or passed the test, paired with `l + 1` when that index exists and failed the
test, and with itself when `l` is the last index. -/
theorem bisect_nonempty (keys : List K) (f : Int) (hne : keys ≠ []) :
    ∃ l, l < keys.length ∧ (l = 0 ∨ frameAt keys l ≤ f) ∧
      ((l + 1 < keys.length ∧ bisect (some keys) f = some ((l : Int), ((l + 1 : Nat) : Int)) ∧
          f < frameAt keys (l + 1)) ∨
        (l + 1 = keys.length ∧ bisect (some keys) f = some ((l : Int), (l : Int)))) := by
  have hpos : 0 < keys.length := List.length_pos.mpr hne
  obtain ⟨l, h1, _, h3, h4, h5⟩ :=
    bisectLoop_spec keys f keys.length 0 keys.length rfl hpos (le_refl _)
  refine ⟨l, by omega, h4, ?_⟩
  have hsz : ¬ keys.length = 0 := by omega
  by_cases hlast : l + 1 < keys.length
  · left
    refine ⟨hlast, ?_, ?_⟩
    · simp only [bisect, hsz, if_false, h1, hlast, if_true]
    · rcases h5 with h5 | h5
      · omega
      · exact h5
  · right
    refine ⟨by omega, ?_⟩
    simp only [bisect, hsz, if_false, h1, hlast]

theorem truncInt_intCast (n : Int) : truncInt (n : ℚ) = n := by
  unfold truncInt
  split <;> simp

/-- When the search returns `(l, l)`, `getFrame` converts key `l` without interpolation. -/
theorem getFrame_of_same {Q : Type} (keys : List K) (q : ℚ) (l : Nat) (k : K)
    (trans : K → Q) (inter : K → K → ℚ → Q) (d : Q)
    (hb : bisect (some keys) (truncInt q) = some ((l : Int), (l : Int)))
    (hk : keys[l]? = some k) :
    getFrame (some keys) q trans inter d = some (trans k) := by
  simp [getFrame, hb, hk]

/-- When the search returns `(l, r)` with `l ≠ r`, `getFrame` interpolates keys `l` and
`r` at `s = (frame - l.frame) / (r.frame - l.frame)`. -/
theorem getFrame_of_pair {Q : Type} (keys : List K) (q : ℚ) (l r : Nat) (kl kr : K)
    (trans : K → Q) (inter : K → K → ℚ → Q) (d : Q)
    (hb : bisect (some keys) (truncInt q) = some ((l : Int), (r : Int))) (hlr : l ≠ r)
    (hl : keys[l]? = some kl) (hr : keys[r]? = some kr) :
    getFrame (some keys) q trans inter d =
      some (inter kl kr ((q - (HasFrame.frame kl : ℚ)) /
        ((HasFrame.frame kr : ℚ) - (HasFrame.frame kl : ℚ)))) := by
  simp [getFrame, hb, hl, hr, hlr]

theorem frameAt_mono {keys : List K} (hs : SortedByFrame keys) {i j : Nat} (hij : i ≤ j)
    (hj : j < keys.length) : frameAt keys i ≤ frameAt keys j := by
  have hi : i < keys.length := by omega
  rw [frameAt, frameAt, List.getElem?_eq_getElem hi, List.getElem?_eq_getElem hj]
  rcases Nat.lt_or_eq_of_le hij with h | h
  · exact List.pairwise_iff_getElem.mp hs i j hi hj h
  · subst h
    exact le_refl _

theorem frameAt_strictMono {keys : List K} (hs : StrictByFrame keys) {i j : Nat} (hij : i < j)
    (hj : j < keys.length) : frameAt keys i < frameAt keys j := by
  have hi : i < keys.length := by omega
  rw [frameAt, frameAt, List.getElem?_eq_getElem hi, List.getElem?_eq_getElem hj]
  exact List.pairwise_iff_getElem.mp hs i j hi hj hij

theorem StrictByFrame.sorted {keys : List K} (hs : StrictByFrame keys) : SortedByFrame keys :=
  List.Pairwise.imp (fun h => le_of_lt h) hs

/-- Search on a sorted sequence at or after the first keyframe: the clamped pair at or
beyond the last keyframe, a bracketing adjacent pair otherwise. -/
theorem bisect_sorted (keys : List K) (f : Int) (hne : keys ≠ []) (hs : SortedByFrame keys)
    (h0 : frameAt keys 0 ≤ f) :
    (frameAt keys (keys.length - 1) ≤ f →
      bisect (some keys) f = some (((keys.length - 1 : Nat) : Int), ((keys.length - 1 : Nat) : Int))) ∧
    (f < frameAt keys (keys.length - 1) →
      ∃ l, l + 1 < keys.length ∧
        bisect (some keys) f = some ((l : Int), ((l + 1 : Nat) : Int)) ∧
        frameAt keys l ≤ f ∧ f < frameAt keys (l + 1)) := by
  obtain ⟨l, hl, hleft, hcase⟩ := bisect_nonempty keys f hne
  have hleft2 : frameAt keys l ≤ f := by
    rcases hleft with h | h
    · rw [h]; exact h0
    · exact h
  constructor
  · intro hlast
    rcases hcase with ⟨h1, _, h3⟩ | ⟨h1, h2⟩
    · have := frameAt_mono hs (show l + 1 ≤ keys.length - 1 by omega) (by omega)
      omega
    · have : keys.length - 1 = l := by omega
      rw [this]
      exact h2
  · intro hlast
    rcases hcase with ⟨h1, h2, h3⟩ | ⟨h1, h2⟩
    · exact ⟨l, h1, h2, hleft2, h3⟩
    · have : keys.length - 1 = l := by omega
      rw [this] at hlast
      omega

theorem frameAt_zero_eq_head (keys : List K) (hne : keys ≠ []) :
    frameAt keys 0 = HasFrame.frame (keys.head hne) := by
  cases keys with
  | nil => exact absurd rfl hne
  | cons a t => simp [frameAt]

theorem frameAt_last_eq_getLast (keys : List K) (hne : keys ≠ []) :
    frameAt keys (keys.length - 1) = HasFrame.frame (keys.getLast hne) := by
  rw [frameAt, getElem?_last_eq_getLast keys hne]

/-- C1: on a non-empty sequence sorted ascending by frame and an integer query frame `f`
at or after the first keyframe, `bisect` returns `(last, last)` when `f` is at or beyond
the last keyframe, and `getFrame` then returns the last keyframe converted by `trans`
with no interpolation; otherwise `bisect` returns an adjacent pair `(l, l + 1)` with
`keys[l].frame <= f < keys[l + 1].frame`. -/
theorem bisect_brackets_from_first_keyframe {Q : Type} (keys : List K) (f : Int)
    (trans : K → Q) (inter : K → K → ℚ → Q) (d : Q)
    (hne : keys ≠ []) (hs : SortedByFrame keys)
    (h0 : HasFrame.frame (keys.head hne) ≤ f) :
    (HasFrame.frame (keys.getLast hne) ≤ f →
      bisect (some keys) f =
          some (((keys.length - 1 : Nat) : Int), ((keys.length - 1 : Nat) : Int)) ∧
        getFrame (some keys) (f : ℚ) trans inter d = some (trans (keys.getLast hne))) ∧
    (f < HasFrame.frame (keys.getLast hne) →
      ∃ (l : Nat) (kl kr : K), keys[l]? = some kl ∧ keys[l + 1]? = some kr ∧
        bisect (some keys) f = some ((l : Int), ((l + 1 : Nat) : Int)) ∧
        HasFrame.frame kl ≤ f ∧ f < HasFrame.frame kr) := by
  rw [← frameAt_zero_eq_head] at h0
  rw [← frameAt_last_eq_getLast]
  obtain ⟨hA, hB⟩ := bisect_sorted keys f hne hs h0
  constructor
  · intro hlast
    have hb := hA hlast
    refine ⟨hb, ?_⟩
    exact getFrame_of_same keys (f : ℚ) (keys.length - 1) (keys.getLast hne) trans inter d
      (by rw [truncInt_intCast]; exact hb) (getElem?_last_eq_getLast keys hne)
  · intro hlast
    obtain ⟨l, h1, h2, h3, h4⟩ := hB hlast
    have hl : l < keys.length := by omega
    refine ⟨l, keys[l], keys[l + 1], List.getElem?_eq_getElem hl, List.getElem?_eq_getElem h1,
      h2, ?_, ?_⟩
    · rw [frameAt, List.getElem?_eq_getElem hl] at h3
      exact h3
    · rw [frameAt, List.getElem?_eq_getElem h1] at h4
      exact h4

/-- C1 at the sample morph channel and query frame 12: the bracketing pair is `(1, 2)`. -/
theorem bisect_brackets_from_first_keyframe_witness :
    SortedByFrame sampleFaces ∧
    ((20 : Int) ≤ 12 →
      bisect (some sampleFaces) 12 = some (((3 - 1 : Nat) : Int), ((3 - 1 : Nat) : Int)) ∧
        getFrame (some sampleFaces) ((12 : Int) : ℚ) toFloat interFace 0 = some (toFloat ⟨20, 2⟩)) ∧
    ((12 : Int) < 20 →
      ∃ (l : Nat) (kl kr : vmd.Face), sampleFaces[l]? = some kl ∧ sampleFaces[l + 1]? = some kr ∧
        bisect (some sampleFaces) 12 = some ((l : Int), ((l + 1 : Nat) : Int)) ∧
        HasFrame.frame kl ≤ 12 ∧ 12 < HasFrame.frame kr) :=
  ⟨by simp [SortedByFrame, sampleFaces, HasFrame.frame],
    bisect_brackets_from_first_keyframe sampleFaces 12 toFloat interFace 0
      (by simp [sampleFaces]) (by simp [SortedByFrame, sampleFaces, HasFrame.frame])
      (by simp [sampleFaces, HasFrame.frame])⟩

/-- Search at the exact frame of keyframe `i` of a strictly ascending sequence: the left
index is `i`, the right index is `i + 1` when it exists and `i` otherwise. -/
theorem bisect_exact (keys : List K) (i : Nat) (k : K) (hs : StrictByFrame keys)
    (hi : keys[i]? = some k) :
    bisect (some keys) (HasFrame.frame k) =
      some ((i : Int), ((if i + 1 < keys.length then i + 1 else i : Nat) : Int)) := by
  have hlt : i < keys.length := (List.getElem?_eq_some_iff.mp hi).1
  have hne : keys ≠ [] := List.ne_nil_of_length_pos (by omega)
  have hfi : frameAt keys i = HasFrame.frame k := frameAt_of_getElem? hi
  have h0 : frameAt keys 0 ≤ HasFrame.frame k := by
    rw [← hfi]
    exact frameAt_mono hs.sorted (Nat.zero_le i) hlt
  obtain ⟨hA, hB⟩ := bisect_sorted keys (HasFrame.frame k) hne hs.sorted h0
  by_cases hlast : i + 1 < keys.length
  · rw [if_pos hlast]
    have hf : HasFrame.frame k < frameAt keys (keys.length - 1) := by
      rw [← hfi]
      exact frameAt_strictMono hs (by omega) (by omega)
    obtain ⟨l, h1, h2, h3, h4⟩ := hB hf
    have hli : l = i := by
      rcases Nat.lt_trichotomy l i with h | h | h
      · have := frameAt_mono hs.sorted (show l + 1 ≤ i by omega) hlt
        omega
      · exact h
      · have := frameAt_strictMono hs h (show l < keys.length by omega)
        omega
    rw [h2, hli]
  · rw [if_neg hlast]
    have hil : keys.length - 1 = i := by omega
    have := hA (by rw [hil, hfi])
    rw [this, hil]

/-- Sampling a strictly ascending sequence at the exact frame of keyframe `i` returns
`trans keys[i]`, for any `inter` that agrees with `trans` at `s = 0`. -/
theorem getFrame_exact {Q : Type} (keys : List K) (i : Nat) (k : K)
    (trans : K → Q) (inter : K → K → ℚ → Q) (d : Q)
    (hinter : ∀ l r, inter l r 0 = trans l)
    (hs : StrictByFrame keys) (hi : keys[i]? = some k) :
    getFrame (some keys) (HasFrame.frame k : ℚ) trans inter d = some (trans k) := by
  have hb := bisect_exact keys i k hs hi
  rw [← truncInt_intCast (HasFrame.frame k)] at hb
  by_cases hlast : i + 1 < keys.length
  · rw [if_pos hlast] at hb
    have hr : keys[i + 1]? = some keys[i + 1] := List.getElem?_eq_getElem hlast
    rw [getFrame_of_pair keys _ i (i + 1) k keys[i + 1] trans inter d hb (by omega) hi hr]
    simp [hinter]
  · rw [if_neg hlast] at hb
    exact getFrame_of_same keys _ i k trans inter d hb hi

theorem interFace_zero (l r : vmd.Face) : interFace l r 0 = toFloat l := by
  simp [interFace, toFloat, mix]

theorem interBone_zero (slerp : Quat → Quat → ℚ → Quat) (hslerp : ∀ a b, slerp a b 0 = a)
    (l r : vmd.Keyframe) : interBone slerp l r 0 = toMat4 l := by
  simp [interBone, toMat4, mixVec3, mix, hslerp]

/-- Search on a sorted sequence before its first keyframe: the left index stays `0`; the
right index is `1` when the sequence has a second keyframe and `0` otherwise. -/
theorem bisect_before_first (keys : List K) (f : Int) (hne : keys ≠ [])
    (hs : SortedByFrame keys) (h0 : f < HasFrame.frame (keys.head hne)) :
    bisect (some keys) f =
      some ((0 : Int), ((if 1 < keys.length then 1 else 0 : Nat) : Int)) := by
  rw [← frameAt_zero_eq_head] at h0
  obtain ⟨l, hl, hleft, hcase⟩ := bisect_nonempty keys f hne
  have hl0 : l = 0 := by
    rcases hleft with h | h
    · exact h
    · have := frameAt_mono hs (Nat.zero_le l) hl
      omega
  subst hl0
  rcases hcase with ⟨h1, h2, _⟩ | ⟨h1, h2⟩
  · rw [h2, if_pos (by omega)]
    simp
  · rw [h2, if_neg (by omega)]
    simp

/-- Whenever the search returns `(l, r)` with `l ≠ r`, both are indices of the sequence
and `getFrame` returns `inter` of the two keys at
`s = (frame - keys[l].frame) / (keys[r].frame - keys[l].frame)`. -/
theorem getFrame_blend {Q : Type} (remap : Option (List K)) (q : ℚ) (l r : Int)
    (trans : K → Q) (inter : K → K → ℚ → Q) (d : Q)
    (hb : bisect remap (truncInt q) = some (l, r)) (hlr : l ≠ r) :
    ∃ (keys : List K) (kl kr : K), remap = some keys ∧ 0 ≤ l ∧ 0 ≤ r ∧
      keys[l.toNat]? = some kl ∧ keys[r.toNat]? = some kr ∧
      getFrame remap q trans inter d =
        some (inter kl kr ((q - (HasFrame.frame kl : ℚ)) /
          ((HasFrame.frame kr : ℚ) - (HasFrame.frame kl : ℚ)))) := by
  cases remap with
  | none =>
    simp only [bisect, Option.some.injEq, Prod.mk.injEq] at hb
    omega
  | some keys =>
    by_cases hne : keys = []
    · subst hne
      simp only [bisect, List.length_nil, if_true, Option.some.injEq, Prod.mk.injEq] at hb
      omega
    · obtain ⟨i, hi, _, hcase⟩ := bisect_nonempty keys (truncInt q) hne
      rcases hcase with ⟨h1, h2, _⟩ | ⟨_, h2⟩
      · rw [h2] at hb
        simp only [Option.some.injEq, Prod.mk.injEq] at hb
        obtain ⟨hbl, hbr⟩ := hb
        subst hbl
        subst hbr
        refine ⟨keys, keys[i], keys[i + 1], rfl, by omega, by omega, ?_, ?_, ?_⟩
        · simp [List.getElem?_eq_getElem hi]
        · simp [List.getElem?_eq_getElem h1]
        · exact getFrame_of_pair keys q i (i + 1) keys[i] keys[i + 1] trans inter d h2
            (by omega) (List.getElem?_eq_getElem hi) (List.getElem?_eq_getElem h1)
      · rw [h2] at hb
        simp only [Option.some.injEq, Prod.mk.injEq] at hb
        omega

end Bisect

theorem position_translate_mul_cast (p : Vec3) (q : Quat) :
    positionOf (translate p * mat4_cast q) = p := by
  simp [positionOf, translate, mat4_cast, Matrix.mul_apply, Fin.sum_univ_four]

theorem lerpQuat_zero (a b : Quat) : lerpQuat a b 0 = a := by
  simp [lerpQuat, mix]

/-- C2: on a keyframe sequence with strictly ascending frames, sampling with `getFrame`
at the frame of keyframe `i` returns exactly that keyframe: its `scalar` on a morph
channel, the matrix `toMat4` of its position and rotation on a bone channel.  The search
returns `(i, i)` when `i` is the last index (no interpolation) and `(i, i + 1)` otherwise
(interpolation at `s = 0`).  `glm::slerp` is a parameter, assumed to return its first
argument at weight `0`. -/
theorem getFrame_exact_match (slerp : Quat → Quat → ℚ → Quat)
    (hslerp : ∀ a b, slerp a b 0 = a)
    (faces : List vmd.Face) (bones : List vmd.Keyframe) (i j : Nat)
    (fk : vmd.Face) (bk : vmd.Keyframe)
    (hf : StrictByFrame faces) (hb : StrictByFrame bones)
    (hi : faces[i]? = some fk) (hj : bones[j]? = some bk) :
    (bisect (some faces) fk.frame =
        some ((i : Int), ((if i + 1 < faces.length then i + 1 else i : Nat) : Int)) ∧
      getFrame (some faces) (fk.frame : ℚ) toFloat interFace 0 = some fk.scalar) ∧
    (bisect (some bones) bk.frame =
        some ((j : Int), ((if j + 1 < bones.length then j + 1 else j : Nat) : Int)) ∧
      getFrame (some bones) (bk.frame : ℚ) toMat4 (interBone slerp) 1 = some (toMat4 bk)) :=
  ⟨⟨bisect_exact faces i fk hf hi,
      getFrame_exact faces i fk toFloat interFace 0 interFace_zero hf hi⟩,
    ⟨bisect_exact bones j bk hb hj,
      getFrame_exact bones j bk toMat4 (interBone slerp) 1 (interBone_zero slerp hslerp) hb hj⟩⟩

/-- C2 at the sample channels: morph keyframe 1 (not last) and bone keyframe 1 (last). -/
theorem getFrame_exact_match_witness :
    (bisect (some sampleFaces) 10 = some ((1 : Int), (2 : Int)) ∧
      getFrame (some sampleFaces) ((10 : Int) : ℚ) toFloat interFace 0 = some 3) ∧
    (bisect (some sampleBones) 10 = some ((1 : Int), (1 : Int)) ∧
      getFrame (some sampleBones) ((10 : Int) : ℚ) toMat4 (interBone lerpQuat) 1 =
        some (toMat4 ⟨10, ⟨10, 0, 0⟩, ⟨0, 0, 0, 1⟩⟩)) :=
  getFrame_exact_match lerpQuat lerpQuat_zero sampleFaces sampleBones 1 1
    ⟨10, 3⟩ ⟨10, ⟨10, 0, 0⟩, ⟨0, 0, 0, 1⟩⟩
    (by simp [StrictByFrame, sampleFaces, HasFrame.frame])
    (by simp [StrictByFrame, sampleBones, HasFrame.frame])
    (by simp [sampleFaces]) (by simp [sampleBones])

/-- C3 (evaluation): on the sorted two-keyframe morph channel `lateFaces` (frames 10 and
20, weights 1 and 3) and query frame 5, before the first keyframe, `bisect` returns
`(0, 1)` rather than `(0, 0)`, and `getFrame` extrapolates backward to weight `0` instead
of returning the first keyframe's weight `1`. -/
theorem getFrame_before_first_extrapolates :
    SortedByFrame lateFaces ∧
    bisect (some lateFaces) 5 = some ((0 : Int), (1 : Int)) ∧
    getFrame (some lateFaces) ((5 : Int) : ℚ) toFloat interFace 0 = some 0 ∧
    toFloat ⟨10, 1⟩ = 1 := by
  have hb : bisect (some lateFaces) 5 = some ((0 : Int), (1 : Int)) := by
    simp [bisect, bisectLoop, lateFaces, HasFrame.frame]
  refine ⟨by simp [SortedByFrame, lateFaces, HasFrame.frame], hb, ?_, rfl⟩
  rw [getFrame_of_pair lateFaces _ 0 1 ⟨10, 1⟩ ⟨20, 3⟩ toFloat interFace 0
    (by rw [truncInt_intCast]; exact hb) (by decide) (by simp [lateFaces]) (by simp [lateFaces])]
  norm_num [interFace, mix, HasFrame.frame]

theorem mixVec3_eq (p q : Vec3) (s : ℚ) :
    mixVec3 p q s =
      ⟨(1 - s) * p.x + s * q.x, (1 - s) * p.y + s * q.y, (1 - s) * p.z + s * q.z⟩ := by
  simp only [mixVec3, mix, Vec3.mk.injEq]
  exact ⟨by ring, by ring, by ring⟩

theorem interBone_eq_translate (slerp : Quat → Quat → ℚ → Quat) (l r : vmd.Keyframe) (s : ℚ) :
    interBone slerp l r s =
      translate ⟨(1 - s) * l.position.x + s * r.position.x,
          (1 - s) * l.position.y + s * r.position.y,
          (1 - s) * l.position.z + s * r.position.z⟩ *
        mat4_cast (slerp ⟨l.rotation.w, l.rotation.x, l.rotation.y, l.rotation.z⟩
          ⟨r.rotation.w, r.rotation.x, r.rotation.y, r.rotation.z⟩ s) := by
  simp only [interBone, mixVec3_eq]

theorem truncInt_five : truncInt 5 = 5 := by
  have h : ((5 : Int) : ℚ) = 5 := by norm_num
  rw [← h, truncInt_intCast]

theorem bisect_sampleFaces_five : bisect (some sampleFaces) (truncInt 5) = some ((0 : Int), (1 : Int)) := by
  rw [truncInt_five]
  simp [bisect, bisectLoop, sampleFaces, HasFrame.frame]

theorem bisect_sampleBones_five : bisect (some sampleBones) (truncInt 5) = some ((0 : Int), (1 : Int)) := by
  rw [truncInt_five]
  simp [bisect, bisectLoop, sampleBones, HasFrame.frame]

/-- C4: for a query frame `q` whose conversion to `int` is defined, whenever `bisect`
returns `(l, r)` with `l ≠ r`, both are indices of the sequence and, the two keyframes
having different frames, `getFrame` returns the blend of `keys[l]` and `keys[r]` at
`s = (frame - keys[l].frame) / (keys[r].frame - keys[l].frame)`: on a morph channel the
weight `(1 - s) * left + s * right`; on a bone channel the matrix
`translate(pos) * mat4_cast(slerp(ql, qr, s))` whose position `pos` has the components
`(1 - s) * left + s * right`.  (With equal frames the source divides by zero; nothing is
stated there.)  In particular two bone keyframes with positions `(0,0,0)` at frame 0 and
`(10,0,0)` at frame 10, sampled at frame 5, give position `(5,0,0)`. -/
theorem getFrame_interpolates (slerp : Quat → Quat → ℚ → Quat)
    (faces : Option (List vmd.Face)) (bones : Option (List vmd.Keyframe)) (q : ℚ) (l r : Int)
    (_hq : IsInt32 (truncInt q)) :
    (bisect faces (truncInt q) = some (l, r) → l ≠ r →
      ∃ (keys : List vmd.Face) (kl kr : vmd.Face) (s : ℚ), faces = some keys ∧
        keys[l.toNat]? = some kl ∧ keys[r.toNat]? = some kr ∧
        s = (q - (kl.frame : ℚ)) / ((kr.frame : ℚ) - (kl.frame : ℚ)) ∧
        (kl.frame ≠ kr.frame →
          getFrame faces q toFloat interFace 0 =
            some ((1 - s) * kl.scalar + s * kr.scalar))) ∧
    (bisect bones (truncInt q) = some (l, r) → l ≠ r →
      ∃ (keys : List vmd.Keyframe) (kl kr : vmd.Keyframe) (s : ℚ) (pos : Vec3) (m : Mat4),
        bones = some keys ∧ keys[l.toNat]? = some kl ∧ keys[r.toNat]? = some kr ∧
        s = (q - (kl.frame : ℚ)) / ((kr.frame : ℚ) - (kl.frame : ℚ)) ∧
        pos = ⟨(1 - s) * kl.position.x + s * kr.position.x,
          (1 - s) * kl.position.y + s * kr.position.y,
          (1 - s) * kl.position.z + s * kr.position.z⟩ ∧
        m = translate pos * mat4_cast (slerp
          ⟨kl.rotation.w, kl.rotation.x, kl.rotation.y, kl.rotation.z⟩
          ⟨kr.rotation.w, kr.rotation.x, kr.rotation.y, kr.rotation.z⟩ s) ∧
        positionOf m = pos ∧
        (kl.frame ≠ kr.frame → getFrame bones q toMat4 (interBone slerp) 1 = some m)) ∧
    (∃ m : Mat4, getFrame (some sampleBones) 5 toMat4 (interBone slerp) 1 = some m ∧
      positionOf m = ⟨5, 0, 0⟩) := by
  refine ⟨?_, ?_, ?_⟩
  · intro hb hlr
    obtain ⟨keys, kl, kr, h1, _, _, h4, h5, h6⟩ :=
      getFrame_blend faces q l r toFloat interFace 0 hb hlr
    refine ⟨keys, kl, kr, _, h1, h4, h5, rfl, ?_⟩
    intro _
    rw [h6]
    simp only [interFace, mix, HasFrame.frame]
    congr 1
    ring
  · intro hb hlr
    obtain ⟨keys, kl, kr, h1, _, _, h4, h5, h6⟩ :=
      getFrame_blend bones q l r toMat4 (interBone slerp) 1 hb hlr
    refine ⟨keys, kl, kr, _, _, _, h1, h4, h5, rfl, rfl, rfl, ?_, ?_⟩
    · exact position_translate_mul_cast _ _
    · intro _
      rw [h6, interBone_eq_translate]
      rfl
  · obtain ⟨keys, kl, kr, h1, _, _, h4, h5, h6⟩ :=
      getFrame_blend (some sampleBones) 5 0 1 toMat4 (interBone slerp) 1
        bisect_sampleBones_five (by decide)
    refine ⟨_, h6, ?_⟩
    simp only [Option.some.injEq] at h1
    subst h1
    simp only [sampleBones, Int.toNat_zero, Int.toNat_one, List.getElem?_cons_zero,
      List.getElem?_cons_succ, Option.some.injEq] at h4 h5
    subst h4
    subst h5
    simp only [interBone]
    rw [position_translate_mul_cast]
    norm_num [mixVec3, mix, HasFrame.frame]

/-- C4 at the sample channels and query frame 5, where the search returns `(0, 1)` and the
two keyframes are at frames 0 and 10. -/
theorem getFrame_interpolates_witness :
    IsInt32 (truncInt 5) ∧
    (∃ (kl kr : vmd.Face) (s : ℚ),
        sampleFaces[(0 : Int).toNat]? = some kl ∧ sampleFaces[(1 : Int).toNat]? = some kr ∧
        kl.frame ≠ kr.frame ∧
        s = (5 - (kl.frame : ℚ)) / ((kr.frame : ℚ) - (kl.frame : ℚ)) ∧
        getFrame (some sampleFaces) 5 toFloat interFace 0 =
          some ((1 - s) * kl.scalar + s * kr.scalar)) ∧
    (∃ m : Mat4, getFrame (some sampleBones) 5 toMat4 (interBone lerpQuat) 1 = some m ∧
      positionOf m = ⟨5, 0, 0⟩) := by
  have hq : IsInt32 (truncInt 5) := by
    rw [truncInt_five]
    decide
  have h := getFrame_interpolates lerpQuat (some sampleFaces) (some sampleBones) 5 0 1 hq
  obtain ⟨keys, kl, kr, s, h1, h2, h3, h4, h5⟩ := h.1 bisect_sampleFaces_five (by decide)
  simp only [Option.some.injEq] at h1
  subst h1
  have hne : kl.frame ≠ kr.frame := by
    simp only [sampleFaces, Int.toNat_zero, Int.toNat_one, List.getElem?_cons_zero,
      List.getElem?_cons_succ, Option.some.injEq] at h2 h3
    subst h2
    subst h3
    decide
  exact ⟨hq, ⟨kl, kr, s, h2, h3, hne, h4, h5 hne⟩, h.2.2⟩

/-! ### Loops over the bindings -/

theorem set_eq_self_of_getElem? {α : Type} {xs : List α} {i : Nat} {x : α}
    (h : xs[i]? = some x) : xs.set i x = xs := by
  apply List.ext_getElem?
  intro j
  rw [List.getElem?_set]
  by_cases hij : i = j
  · subst hij
    have hi : i < xs.length := (List.getElem?_eq_some_iff.mp h).1
    simp [hi, h]
  · simp [hij]

/-- An index loop whose body overwrites entry `i` with `g` of its value rewrites the
entries from the start index on and leaves the earlier ones. -/
theorem forFrom_set_getElem? {α : Type} (body : Nat → List α → List α) (g : α → α)
    (hbody : ∀ i xs x, xs[i]? = some x → body i xs = xs.set i (g x)) :
    ∀ (k i : Nat) (xs : List α), i + k = xs.length →
      ∀ j, (forFrom body k i xs)[j]? = if i ≤ j then (xs[j]?).map g else xs[j]? := by
  intro k
  induction k with
  | zero =>
    intro i xs h j
    simp only [forFrom]
    by_cases hij : i ≤ j
    · rw [if_pos hij, List.getElem?_eq_none (by omega)]
      rfl
    · rw [if_neg hij]
  | succ k ih =>
    intro i xs h j
    have hi : i < xs.length := by omega
    have hx := List.getElem?_eq_getElem hi
    simp only [forFrom]
    rw [hbody i xs _ hx, ih (i + 1) _ (by rw [List.length_set]; omega) j, List.getElem?_set]
    by_cases h1 : i + 1 ≤ j
    · simp [h1, show i ≤ j by omega, show ¬ i = j by omega]
    · by_cases h2 : i = j
      · subst h2
        simp [hi, hx]
      · simp [h1, h2, show ¬ i ≤ j by omega]

theorem forLoop_set_eq_map {α : Type} (body : Nat → List α → List α) (g : α → α)
    (hbody : ∀ i xs x, xs[i]? = some x → body i xs = xs.set i (g x)) (xs : List α) :
    forLoop xs.length body xs = xs.map g := by
  apply List.ext_getElem?
  intro j
  rw [forLoop, forFrom_set_getElem? body g hbody xs.length 0 xs (by omega) j,
    if_pos (Nat.zero_le j), List.getElem?_map]

/-- The loop of `applyBone` is a pointwise rewrite of the bindings. -/
theorem applyBone_rigids {A W : Type} (ops : ArmatureOps A) (arm : A) (b : BodyImp W) :
    (BodyImp.applyBone ops arm b).rigids =
      b.rigids.map (fun rg =>
        if rg.isKinematicLinked then
          { rg with motion := gl2bt (ops.skin arm rg.base.bone * rg.W0) }
        else rg) := by
  simp only [BodyImp.applyBone]
  apply forLoop_set_eq_map
  intro i xs x hx
  simp only [hx, Rigid.isKinematicLinked]
  by_cases hc : x.base.bone ≥ 0 ∧ x.base.mode = 0
  · rw [if_pos hc, if_pos hc]
  · rw [if_neg hc, if_neg hc, set_eq_self_of_getElem? hx]

/-- C9: `applyBone` sets the motion-proxy world transform of every binding that is
bone-linked (`bone >= 0`) and kinematic (`mode == 0`) to `gl2bt(skin(bone) * W0)`, with
the armature's current skin matrix, and leaves every other binding, every other field
of a binding, the model pointer and the world unchanged. -/
theorem applyBone_pushes_kinematic {A W : Type} (ops : ArmatureOps A) (arm : A)
    (b : BodyImp W) :
    (BodyImp.applyBone ops arm b).rigids =
        b.rigids.map (fun rg =>
          if rg.isKinematicLinked then
            { rg with motion := gl2bt (ops.skin arm rg.base.bone * rg.W0) }
          else rg) ∧
      (BodyImp.applyBone ops arm b).world = b.world ∧
      (BodyImp.applyBone ops arm b).model = b.model := by
  exact ⟨applyBone_rigids ops arm b, rfl, rfl⟩

/-- C8: `update(tick)` is `applyBone()`, then `stepSimulation(tick)`, then `updateBone()`,
each once and in that order: its result is the body left by the solver step run on the
body left by the kinematic push, together with the armature that the pose pull computes
from that stepped body.  In particular the solver step receives the motion proxies as the
kinematic push left them. -/
theorem update_is_push_step_pull {A W : Type} (ops : ArmatureOps A) (bullet : BulletOps W)
    (tick : ℚ) (b : BodyImp W) (arm : A) :
    BodyImp.update ops bullet tick b arm =
        (BodyImp.updateBone ops
            (BodyImp.stepSimulation bullet tick (BodyImp.applyBone ops arm b)) arm).map
          (fun arm1 =>
            (BodyImp.stepSimulation bullet tick (BodyImp.applyBone ops arm b), arm1)) ∧
      (BodyImp.stepSimulation bullet tick (BodyImp.applyBone ops arm b)).world =
        (bullet.stepSimulation b.world tick maxSubstep frequency
          ((b.rigids.map (fun rg =>
              if rg.isKinematicLinked then
                { rg with motion := gl2bt (ops.skin arm rg.base.bone * rg.W0) }
              else rg)).map
            (fun rg => (rg.bt, rg.motion)))).1 := by
  constructor
  · simp only [BodyImp.update]
    cases BodyImp.updateBone ops
      (BodyImp.stepSimulation bullet tick (BodyImp.applyBone ops arm b)) arm <;> rfl
  · simp only [BodyImp.stepSimulation]
    rw [applyBone_rigids]
    rfl

/-- The loop of `updateBone` from index `i` on computes the specified pose pull of the
remaining bindings, provided every physics-driven binding names a bone of the model. -/
theorem updateBone_loop {A W : Type} (ops : ArmatureOps A) (b : BodyImp W) (model : pmx.Model)
    (hm : b.model = some model)
    (hwf : ∀ rg ∈ b.rigids, rg.isPhysicsLinked → rg.base.bone.toNat < model.bones.length)
    (body : Nat → A → Option A)
    (hbody : ∀ i arm, body i arm =
      match b.rigids[i]? with
      | none => none
      | some rg =>
        if rg.base.bone ≥ 0 ∧ rg.base.mode ≠ 0 then
          match b.model with
          | none => none
          | some model =>
            match model.bones[rg.base.bone.toNat]? with
            | none => none
            | some bn =>
              some (ops.applyLocal arm rg.base.bone
                (rg.Ti * (if bn.parent ≥ 0 then inverse (ops.global arm bn.parent) else 1) *
                  bt2gl rg.motion * rg.S0i))
        else some arm) :
    ∀ (k i : Nat) (arm : A), i + k = b.rigids.length →
      forFromM body k i arm = some (updateBoneSpec ops model (b.rigids.drop i) arm) := by
  intro k
  induction k with
  | zero =>
    intro i arm h
    rw [List.drop_of_length_le (by omega)]
    rfl
  | succ k ih =>
    intro i arm h
    have hi : i < b.rigids.length := by omega
    have hx := List.getElem?_eq_getElem hi
    have hmem : b.rigids[i] ∈ b.rigids := List.getElem_mem hi
    rw [List.drop_eq_getElem_cons hi]
    simp only [forFromM, hbody, hx, hm, updateBoneSpec, List.filter_cons]
    by_cases hc : b.rigids[i].base.bone ≥ 0 ∧ b.rigids[i].base.mode ≠ 0
    · have hbone := hwf _ hmem hc
      have hbn := List.getElem?_eq_getElem hbone
      have hdec : decide (b.rigids[i].isPhysicsLinked) = true := decide_eq_true hc
      rw [if_pos hc, if_pos hdec]
      simp only [hbn, List.foldl_cons]
      rw [ih (i + 1) _ (by omega)]
      simp only [updateBoneSpec, boneLocal, parentInverse, hbn]
    · have hdec : ¬ decide (b.rigids[i].isPhysicsLinked) = true := by
        simpa [Rigid.isPhysicsLinked] using hc
      rw [if_neg hc, if_neg hdec]
      simp only []
      rw [ih (i + 1) _ (by omega)]
      rfl

/-- C10: with the model loaded and every physics-driven binding naming a bone of the
model, `updateBone` succeeds and calls `applyLocal` exactly once for each binding that is
bone-linked and not kinematic, in binding order, with the transform `Ti * Pi * W * S0i`,
where `W = bt2gl` of the binding's motion-proxy transform and `Pi` is the inverse of the
armature's current world transform of the bone's parent, the identity without a parent.
Kinematic and unbonded bindings cause no call. -/
theorem updateBone_pulls_physics {A W : Type} (ops : ArmatureOps A) (b : BodyImp W)
    (model : pmx.Model) (arm : A) (hm : b.model = some model)
    (hwf : ∀ rg ∈ b.rigids, rg.isPhysicsLinked → rg.base.bone.toNat < model.bones.length) :
    BodyImp.updateBone ops b arm = some (updateBoneSpec ops model b.rigids arm) := by
  have h := updateBone_loop ops b model hm hwf _ (fun _ _ => rfl) b.rigids.length 0 arm
    (by omega)
  rw [List.drop_zero] at h
  exact h

/-- C10 at the sample body over the recording armature: the only call is for the dynamic
binding, on bone 1, whose parent (bone 0) has the identity world transform. -/
theorem updateBone_pulls_physics_witness :
    sampleBody.model = some sampleModel ∧
    (updateBoneSpec recordingArmature sampleModel sampleBody.rigids []).map Prod.fst = [1] ∧
    BodyImp.updateBone recordingArmature sampleBody [] =
      some (updateBoneSpec recordingArmature sampleModel sampleBody.rigids []) :=
  ⟨rfl, by decide, updateBone_pulls_physics recordingArmature sampleBody sampleModel [] rfl
    (by
      intro rg hrg _
      simp only [sampleBody, List.mem_cons, List.mem_singleton, List.not_mem_nil,
        or_false] at hrg
      rcases hrg with h | h <;> subst h <;> simp [sampleRigid, sampleModel])⟩

/-! ### Channel remapping -/

theorem length_resize {α : Type} (v : List α) (n : Nat) (d : α) : (resize v n d).length = n := by
  simp only [resize, List.length_append, List.length_take, List.length_replicate]
  omega

theorem resize_nil {α : Type} (n : Nat) (d : α) : resize ([] : List α) n d = List.replicate n d := by
  simp [resize]

/-- The loop of `remap` from index `i` on, over a table whose entries from `i` on are
still `NULL`: entry `j >= i` becomes the sequence found under the name of part `j`. -/
theorem remap_loop {P T : Type} (name : P → String) (part : List P) (map : String → Option T)
    (body : Nat → List (Option T) → List (Option T))
    (hbody : ∀ i r, body i r =
      match part[i]? with
      | none => r
      | some p =>
        match map (name p) with
        | some x => r.set i (some x)
        | none => r) :
    ∀ (k i : Nat) (r : List (Option T)), i + k = part.length → r.length = part.length →
      (∀ j, i ≤ j → j < part.length → r[j]? = some none) →
      ∀ j, (forFrom body k i r)[j]? =
        if i ≤ j then (part[j]?).map (fun p => map (name p)) else r[j]? := by
  intro k
  induction k with
  | zero =>
    intro i r h hlen _ j
    simp only [forFrom]
    by_cases hij : i ≤ j
    · rw [if_pos hij, List.getElem?_eq_none (by omega), List.getElem?_eq_none (by omega)]
      rfl
    · rw [if_neg hij]
  | succ k ih =>
    intro i r h hlen hnull j
    have hi : i < part.length := by omega
    have hp := List.getElem?_eq_getElem hi
    have hstep : (body i r).length = part.length ∧ (body i r)[i]? = some (map (name part[i])) ∧
        ∀ j, j ≠ i → (body i r)[j]? = r[j]? := by
      have hb : body i r =
          match map (name part[i]) with
          | some x => r.set i (some x)
          | none => r := by
        rw [hbody, hp]
      rw [hb]
      cases map (name part[i]) with
      | none => exact ⟨hlen, hnull i (le_refl i) hi, fun _ _ => rfl⟩
      | some x =>
        refine ⟨by simp [hlen], ?_, ?_⟩
        · simp [List.getElem?_set, hlen, hi]
        · intro j hj
          simp [List.getElem?_set, Ne.symm hj]
    obtain ⟨h1, h2, h3⟩ := hstep
    simp only [forFrom]
    rw [ih (i + 1) (body i r) (by omega) h1
      (fun j hj hjn => by rw [h3 j (by omega)]; exact hnull j (by omega) hjn) j]
    by_cases hj1 : i + 1 ≤ j
    · rw [if_pos hj1, if_pos (by omega)]
    · rw [if_neg hj1]
      by_cases hj2 : i = j
      · subst hj2
        rw [if_pos (le_refl i), h2, hp]
        rfl
      · rw [if_neg (by omega), h3 j (Ne.symm hj2)]

/-- Remapping into an empty table yields the table of the specification: entry `i` is the
motion's sequence under the exact name of model part `i`, or absent. -/
theorem remapChannel_nil {P T : Type} (name : P → String) (part : List P)
    (map : String → Option T) :
    remapChannel name part map [] = remapTable name part map := by
  apply List.ext_getElem?
  intro j
  simp only [remapChannel, forLoop, remapTable]
  rw [remap_loop name part map _ (fun _ _ => rfl) part.length 0 _ (by omega)
    (length_resize _ _ _)
    (fun j _ hj => by rw [resize_nil, List.getElem?_replicate, if_pos hj]) j,
    if_pos (Nat.zero_le j), List.getElem?_map]

/-! ### `updateKey` -/

/-- The sampler `getFrame` returns a value for every channel and every query frame: no
element access is out of bounds. -/
theorem getFrame_total {K Q : Type} [HasFrame K] (remap : Option (List K)) (q : ℚ)
    (trans : K → Q) (inter : K → K → ℚ → Q) (d : Q) :
    ∃ v, getFrame remap q trans inter d = some v := by
  cases remap with
  | none => exact ⟨d, by simp [getFrame, bisect]⟩
  | some keys =>
    by_cases hne : keys = []
    · subst hne
      exact ⟨d, by simp [getFrame, bisect]⟩
    · obtain ⟨l, hl, _, hcase⟩ := bisect_nonempty keys (truncInt q) hne
      rcases hcase with ⟨h1, h2, _⟩ | ⟨_, h2⟩
      · exact ⟨_, getFrame_of_pair keys q l (l + 1) keys[l] keys[l + 1] trans inter d h2
          (by omega) (List.getElem?_eq_getElem hl) (List.getElem?_eq_getElem h1)⟩
      · exact ⟨_, getFrame_of_same keys q l keys[l] trans inter d h2
          (List.getElem?_eq_getElem hl)⟩

/-- An absent or empty channel samples to the default value. -/
theorem getFrame_default {K Q : Type} [HasFrame K] (remap : Option (List K)) (q : ℚ)
    (trans : K → Q) (inter : K → K → ℚ → Q) (d : Q) (h : remap = none ∨ remap = some []) :
    getFrame remap q trans inter d = some d := by
  rcases h with h | h <;> subst h <;> simp [getFrame, bisect]

/-- The bone loop of `updateKey` from index `i` on: the calls `applyLocal(j, sample j)`. -/
theorem updateKey_bone_loop {A : Type} (ops : ArmatureOps A)
    (slerp : Quat → Quat → ℚ → Quat) (frame : ℚ) (chans : List (Option (List vmd.Keyframe)))
    (body : Nat → A → Option A)
    (hbody : ∀ i arm, body i arm =
      match chans[i]? with
      | none => none
      | some channel =>
        match getFrame channel frame toMat4 (interBone slerp) (1 : Mat4) with
        | none => none
        | some tr => some (ops.applyLocal arm (i : Int) tr)) :
    ∀ (k i : Nat) (arm : A), i + k = chans.length →
      forFromM body k i arm =
        some (applyLocals ops arm i ((chans.drop i).map (boneSample slerp frame))) := by
  intro k
  induction k with
  | zero =>
    intro i arm h
    rw [List.drop_of_length_le (by omega)]
    rfl
  | succ k ih =>
    intro i arm h
    have hi : i < chans.length := by omega
    obtain ⟨v, hv⟩ := getFrame_total chans[i] frame toMat4 (interBone slerp) (1 : Mat4)
    have hb : body i arm = some (ops.applyLocal arm (i : Int) v) := by
      rw [hbody, List.getElem?_eq_getElem hi]
      simp only [hv]
    rw [List.drop_eq_getElem_cons hi]
    simp only [forFromM, hb, List.map_cons, applyLocals]
    rw [ih (i + 1) _ (by omega)]
    simp only [boneSample, hv, Option.getD_some]

/-- The morph loop of `updateKey` from index `i` on: entry `j` of the morph vector becomes
the sample of channel `j`; the other entries stay. -/
theorem updateKey_morph_loop (frame : ℚ) (chans : List (Option (List vmd.Face)))
    (body : Nat → List ℚ → Option (List ℚ))
    (hbody : ∀ i morph, body i morph =
      match chans[i]? with
      | none => none
      | some channel =>
        match getFrame channel frame toFloat interFace (0 : ℚ) with
        | none => none
        | some v => if i < morph.length then some (morph.set i v) else none) :
    ∀ (k i : Nat) (morph : List ℚ), i + k = chans.length → chans.length ≤ morph.length →
      ∃ morph1, forFromM body k i morph = some morph1 ∧ morph1.length = morph.length ∧
        ∀ j, morph1[j]? =
          if i ≤ j ∧ j < chans.length then (chans[j]?).map (faceSample frame) else morph[j]? := by
  intro k
  induction k with
  | zero =>
    intro i morph h _
    refine ⟨morph, rfl, rfl, ?_⟩
    intro j
    rw [if_neg (by omega)]
  | succ k ih =>
    intro i morph h hlen
    have hi : i < chans.length := by omega
    obtain ⟨v, hv⟩ := getFrame_total chans[i] frame toFloat interFace (0 : ℚ)
    have hb : body i morph = some (morph.set i v) := by
      rw [hbody, List.getElem?_eq_getElem hi]
      simp only [hv]
      rw [if_pos (by omega)]
    obtain ⟨morph1, h1, h2, h3⟩ :=
      ih (i + 1) (morph.set i v) (by omega) (by rw [List.length_set]; exact hlen)
    refine ⟨morph1, ?_, by rw [h2, List.length_set], ?_⟩
    · simp only [forFromM, hb]
      exact h1
    · intro j
      rw [h3 j, List.getElem?_set]
      by_cases hj1 : i + 1 ≤ j ∧ j < chans.length
      · rw [if_pos hj1, if_pos (by omega)]
      · rw [if_neg hj1]
        by_cases hj2 : i = j
        · subst hj2
          rw [if_pos rfl, if_pos (by omega), if_pos ⟨le_refl i, hi⟩,
            List.getElem?_eq_getElem hi]
          simp only [Option.map_some', faceSample, hv, Option.getD_some]
        · rw [if_neg hj2, if_neg (by omega)]

/-- The whole of `updateKey`: it succeeds when the morph vector is at least as long as the
morph table, applies one sampled transform per bone channel in index order, then solves
IK, and stores one sampled weight per morph channel. -/
theorem updateKey_eq {A W : Type} (ops : ArmatureOps A) (slerp : Quat → Quat → ℚ → Quat)
    (frame : ℚ) (s : MotionImp A W) (hlen : s.faceRemap.length ≤ s.morph.length) :
    MotionImp.updateKey ops slerp frame s =
      some { s with
        armature := ops.solveIK
          (applyLocals ops s.armature 0 (s.boneRemap.map (boneSample slerp frame)))
        morph := s.faceRemap.map (faceSample frame) ++ s.morph.drop s.faceRemap.length } := by
  have hbone := updateKey_bone_loop ops slerp frame s.boneRemap _ (fun _ _ => rfl)
    s.boneRemap.length 0 s.armature (by omega)
  obtain ⟨morph1, h1, h2, h3⟩ := updateKey_morph_loop frame s.faceRemap _ (fun _ _ => rfl)
    s.faceRemap.length 0 s.morph (by omega) hlen
  have hmorph : morph1 = s.faceRemap.map (faceSample frame) ++ s.morph.drop s.faceRemap.length := by
    apply List.ext_getElem?
    intro j
    rw [h3 j, List.getElem?_append]
    by_cases hj : j < s.faceRemap.length
    · rw [if_pos ⟨Nat.zero_le j, hj⟩, if_pos (by rw [List.length_map]; exact hj),
        List.getElem?_map]
    · rw [if_neg (by omega), if_neg (by rw [List.length_map]; exact hj), List.getElem?_drop,
        List.length_map]
      congr 1
      omega
  rw [List.drop_zero] at hbone
  simp only [MotionImp.updateKey, forLoopM, hbone, h1, hmorph]

/-! ### The invariant of `MotionImp` -/

namespace MotionImp

variable {A W : Type}

theorem inv_create (a0 : A) (w0 : W) : (create a0 w0).Inv := by
  simp [Inv, create]

theorem inv_loadModel (ops : ArmatureOps A) (bullet : BulletOps W) (m : pmx.Model)
    (s : MotionImp A W) (h : s.Inv) : (loadModel ops bullet m s).Inv := by
  obtain ⟨h1, _, _⟩ := h
  cases hmod : s.model with
  | none =>
    obtain ⟨hb, hf⟩ := h1 (Or.inl hmod)
    cases hmot : s.motion with
    | none => simp [loadModel, hmod, hmot, Inv, hb, hf, length_resize]
    | some v =>
      simp [loadModel, hmod, hmot, Inv, remap, hb, hf, remapChannel_nil, length_resize]
  | some m0 =>
    cases hmot : s.motion with
    | none => simp [loadModel, resetModel, unmap, hmod, hmot, Inv, length_resize]
    | some v =>
      simp [loadModel, resetModel, unmap, remap, hmod, hmot, Inv, remapChannel_nil,
        length_resize]

theorem inv_resetPose (ops : ArmatureOps A) (s : MotionImp A W) (h : s.Inv) :
    (resetPose ops s).Inv := by
  obtain ⟨h1, h2, h3⟩ := h
  cases hmod : s.model with
  | none =>
    simp only [resetPose, hmod]
    exact ⟨h1, h2, h3⟩
  | some m0 =>
    refine ⟨?_, ?_, ?_⟩
    · intro hh
      simp only [resetPose, hmod] at hh ⊢
      exact h1 (Or.inr (by simpa using hh))
    · intro m v hm hv
      simp only [resetPose, hmod] at hm hv ⊢
      exact h2 m v (by rw [hmod]; exact hm) hv
    · intro m hm
      simp only [resetPose, hmod, Option.some.injEq] at hm ⊢
      subst hm
      simp

theorem inv_resetMotion (ops : ArmatureOps A) (s : MotionImp A W) (h : s.Inv) :
    (resetMotion ops s).Inv := by
  obtain ⟨_, _, h3⟩ := h
  cases hmod : s.model with
  | none =>
    have := h3
    simp [resetMotion, resetPose, unmap, hmod, Inv]
  | some m0 => simp [resetMotion, resetPose, unmap, hmod, Inv]

theorem inv_loadMotion (ops : ArmatureOps A) (v : vmd.Motion) (s : MotionImp A W)
    (h : s.Inv) : (loadMotion ops v s).Inv := by
  obtain ⟨h1, _, h3⟩ := h
  cases hmot : s.motion with
  | none =>
    obtain ⟨hb, hf⟩ := h1 (Or.inr hmot)
    cases hmod : s.model with
    | none => simp [loadMotion, hmod, hmot, Inv, hb, hf]
    | some m0 =>
      have := h3 m0 hmod
      simp [loadMotion, hmod, hmot, Inv, remap, hb, hf, remapChannel_nil, this]
  | some v0 =>
    cases hmod : s.model with
    | none => simp [loadMotion, resetMotion, resetPose, unmap, hmod, hmot, Inv]
    | some m0 =>
      simp [loadMotion, resetMotion, resetPose, unmap, remap, hmod, hmot, Inv,
        remapChannel_nil]

theorem inv_resetModel (ops : ArmatureOps A) (bullet : BulletOps W) (s : MotionImp A W) :
    (resetModel ops bullet s).Inv := by
  simp [resetModel, unmap, Inv]

theorem inv_reset (ops : ArmatureOps A) (bullet : BulletOps W) (s : MotionImp A W) :
    (reset ops bullet s).Inv := by
  simp [reset, unmap, Inv]

theorem faceRemap_length_le (s : MotionImp A W) (h : s.Inv) :
    s.faceRemap.length ≤ s.morph.length := by
  obtain ⟨h1, h2, h3⟩ := h
  cases hmod : s.model with
  | none => simp [(h1 (Or.inl hmod)).2]
  | some m =>
    cases hmot : s.motion with
    | none => simp [(h1 (Or.inr hmot)).2]
    | some v =>
      rw [(h2 m v hmod hmot).2, h3 m hmod]
      simp [remapTable]

theorem inv_updateKey (ops : ArmatureOps A) (slerp : Quat → Quat → ℚ → Quat) (frame : ℚ)
    (s s1 : MotionImp A W) (h : s.Inv) (hs : updateKey ops slerp frame s = some s1) :
    s1.Inv := by
  have hlen := faceRemap_length_le s h
  rw [updateKey_eq ops slerp frame s hlen] at hs
  simp only [Option.some.injEq] at hs
  subst hs
  obtain ⟨h1, h2, h3⟩ := h
  refine ⟨h1, h2, ?_⟩
  intro m hm
  simp only [List.length_append, List.length_map, List.length_drop]
  have := h3 m hm
  omega

theorem inv_step (ops : ArmatureOps A) (bullet : BulletOps W) (slerp : Quat → Quat → ℚ → Quat)
    (s s1 : MotionImp A W) (op : MotionOp) (h : s.Inv)
    (hs : step ops bullet slerp s op = some s1) : s1.Inv := by
  cases op with
  | loadModel m =>
    simp only [step, Option.some.injEq] at hs
    subst hs
    exact inv_loadModel ops bullet m s h
  | loadMotion v =>
    simp only [step, Option.some.injEq] at hs
    subst hs
    exact inv_loadMotion ops v s h
  | resetPose =>
    simp only [step, Option.some.injEq] at hs
    subst hs
    exact inv_resetPose ops s h
  | resetMotion =>
    simp only [step, Option.some.injEq] at hs
    subst hs
    exact inv_resetMotion ops s h
  | resetModel =>
    simp only [step, Option.some.injEq] at hs
    subst hs
    exact inv_resetModel ops bullet s
  | reset =>
    simp only [step, Option.some.injEq] at hs
    subst hs
    exact inv_reset ops bullet s
  | updateKey frame => exact inv_updateKey ops slerp frame s s1 h hs

/-- Every state reached by a sequence of public calls from a state satisfying the
invariant satisfies it. -/
theorem inv_run (ops : ArmatureOps A) (bullet : BulletOps W) (slerp : Quat → Quat → ℚ → Quat)
    (calls : List MotionOp) :
    ∀ (s s1 : MotionImp A W), s.Inv → run ops bullet slerp s calls = some s1 → s1.Inv := by
  induction calls with
  | nil =>
    intro s s1 h hs
    simp only [run, Option.some.injEq] at hs
    subst hs
    exact h
  | cons op rest ih =>
    intro s s1 h hs
    simp only [run] at hs
    cases hstep : step ops bullet slerp s op with
    | none => simp [hstep] at hs
    | some s2 =>
      rw [hstep] at hs
      exact ih s2 s1 (inv_step ops bullet slerp s s2 op h hstep) hs

/-- No call fails from a state that satisfies the invariant. -/
theorem step_total (ops : ArmatureOps A) (bullet : BulletOps W)
    (slerp : Quat → Quat → ℚ → Quat) (s : MotionImp A W) (op : MotionOp) (h : s.Inv) :
    ∃ s1, step ops bullet slerp s op = some s1 := by
  cases op with
  | updateKey frame =>
    exact ⟨_, updateKey_eq ops slerp frame s (faceRemap_length_le s h)⟩
  | _ => exact ⟨_, rfl⟩

end MotionImp

/-- C6: in every state reached from a freshly constructed `MotionImp` by any sequence of
`loadModel`, `loadMotion`, `resetPose`, `resetMotion`, `resetModel`, `reset` and
`updateKey`, both remap tables are empty unless a model and a motion are both loaded; when
both are loaded, the tables have one entry per bone / morph of the current model, entry
`i` being the current motion's sequence under exactly the name of bone / morph `i`, or
absent when the motion has no such name.  No call of such a sequence fails. -/
theorem remap_tables_follow_loaded_pair {A W : Type} (ops : ArmatureOps A)
    (bullet : BulletOps W) (slerp : Quat → Quat → ℚ → Quat) (a0 : A) (w0 : W)
    (calls : List MotionOp) (s : MotionImp A W)
    (hrun : MotionImp.run ops bullet slerp (MotionImp.create a0 w0) calls = some s) :
    ((s.model = none ∨ s.motion = none) → s.boneRemap = [] ∧ s.faceRemap = []) ∧
    (∀ (m : pmx.Model) (v : vmd.Motion), s.model = some m → s.motion = some v →
      s.boneRemap = m.bones.map (fun bone => v.bones bone.name) ∧
      s.faceRemap = m.morphs.map (fun mo => v.faces mo.name)) ∧
    (∀ op : MotionOp, ∃ s1, MotionImp.step ops bullet slerp s op = some s1) := by
  have hinv := MotionImp.inv_run ops bullet slerp calls _ s (MotionImp.inv_create a0 w0) hrun
  exact ⟨hinv.1, hinv.2.1, fun op => MotionImp.step_total ops bullet slerp s op hinv⟩

/-- C6 at the sample state: the call sequence `loadModel`, `loadMotion` reaches it. -/
theorem remap_tables_follow_loaded_pair_witness :
    MotionImp.run recordingArmature idleBullet lerpQuat (MotionImp.create [] 0)
        [.loadModel sampleModel, .loadMotion sampleMotion] = some sampleLoaded ∧
    ((sampleLoaded.model = none ∨ sampleLoaded.motion = none) →
      sampleLoaded.boneRemap = [] ∧ sampleLoaded.faceRemap = []) ∧
    (∀ (m : pmx.Model) (v : vmd.Motion), sampleLoaded.model = some m →
      sampleLoaded.motion = some v →
      sampleLoaded.boneRemap = m.bones.map (fun bone => v.bones bone.name) ∧
      sampleLoaded.faceRemap = m.morphs.map (fun mo => v.faces mo.name)) ∧
    (∀ op : MotionOp, ∃ s1,
      MotionImp.step recordingArmature idleBullet lerpQuat sampleLoaded op = some s1) :=
  ⟨rfl, remap_tables_follow_loaded_pair recordingArmature idleBullet lerpQuat [] 0
    [.loadModel sampleModel, .loadMotion sampleMotion] sampleLoaded rfl⟩

/-- C7: from a freshly constructed `MotionImp`, `loadModel(m)` followed by `loadMotion(v)`
ends in the same state as `loadMotion(v)` followed by `loadModel(m)`: the same model and
motion references, bone and morph remap tables and morph weight vector (and the same
armature and body). -/
theorem load_order_commutes {A W : Type} (ops : ArmatureOps A) (bullet : BulletOps W)
    (m : pmx.Model) (v : vmd.Motion) (a0 : A) (w0 : W) :
    MotionImp.loadMotion ops v (MotionImp.loadModel ops bullet m (MotionImp.create a0 w0)) =
      MotionImp.loadModel ops bullet m (MotionImp.loadMotion ops v (MotionImp.create a0 w0)) ∧
    (MotionImp.loadMotion ops v
        (MotionImp.loadModel ops bullet m (MotionImp.create a0 w0))).boneRemap =
      m.bones.map (fun bone => v.bones bone.name) ∧
    (MotionImp.loadMotion ops v
        (MotionImp.loadModel ops bullet m (MotionImp.create a0 w0))).faceRemap =
      m.morphs.map (fun mo => v.faces mo.name) ∧
    (MotionImp.loadMotion ops v
        (MotionImp.loadModel ops bullet m (MotionImp.create a0 w0))).morph =
      List.replicate m.morphs.length 0 := by
  refine ⟨rfl, ?_, ?_, ?_⟩
  · simp [MotionImp.loadMotion, MotionImp.loadModel, MotionImp.create, MotionImp.remap,
      remapChannel_nil, remapTable]
  · simp [MotionImp.loadMotion, MotionImp.loadModel, MotionImp.create, MotionImp.remap,
      remapChannel_nil, remapTable]
  · simp [MotionImp.loadMotion, MotionImp.loadModel, MotionImp.create, MotionImp.remap,
      resize_nil]

/-! ### Transform conversions -/

theorem gl2bt_bt2gl (t : BtTransform) : gl2bt (bt2gl t) = t := by
  cases t with
  | mk basis origin =>
    simp only [gl2bt, bt2gl, glmAt, mat4OfColumns, BtTransform.mk.injEq]
    constructor
    · ext i j
      fin_cases i <;> fin_cases j <;> simp
    · funext i
      fin_cases i <;> simp

/-- The matrix `bt2gl(gl2bt(m))` keeps the first three rows of `m` and has the bottom row
`(0, 0, 0, 1)`. -/
theorem bt2gl_gl2bt_apply (m : Mat4) (i j : Fin 4) :
    bt2gl (gl2bt m) i j = if i = 3 then (if j = 3 then 1 else 0) else m i j := by
  fin_cases i <;> fin_cases j <;> simp [gl2bt, bt2gl, glmAt, mat4OfColumns]

/-- C19: the transform conversions are mutually inverse on affine transforms:
`gl2bt(bt2gl(t)) = t` for every physics transform `t`, and `bt2gl(gl2bt(m)) = m` exactly
when the bottom row of `m`, the glm entries `m[0][3], m[1][3], m[2][3], m[3][3]`, is
`(0, 0, 0, 1)`. -/
theorem conversions_mutually_inverse (t : BtTransform) (m : Mat4) :
    gl2bt (bt2gl t) = t ∧
    (bt2gl (gl2bt m) = m ↔
      glmAt m 0 3 = 0 ∧ glmAt m 1 3 = 0 ∧ glmAt m 2 3 = 0 ∧ glmAt m 3 3 = 1) := by
  refine ⟨gl2bt_bt2gl t, ?_, ?_⟩
  · intro h
    have h0 := bt2gl_gl2bt_apply m 3 0
    have h1 := bt2gl_gl2bt_apply m 3 1
    have h2 := bt2gl_gl2bt_apply m 3 2
    have h3 := bt2gl_gl2bt_apply m 3 3
    rw [h] at h0 h1 h2 h3
    simp only [glmAt]
    refine ⟨?_, ?_, ?_, ?_⟩
    · simpa using h0
    · simpa using h1
    · simpa using h2
    · simpa using h3
  · rintro ⟨h0, h1, h2, h3⟩
    simp only [glmAt] at h0 h1 h2 h3
    ext i j
    rw [bt2gl_gl2bt_apply]
    fin_cases i <;> fin_cases j <;> simp [h0, h1, h2, h3]

/-! ### Bounds of the search -/

/-- C18: `bisect` is total, so the search terminates for every keyframe sequence and
every query frame, sorted or not, and it never reads outside the sequence.  It returns
`(-1, -1)` exactly when the sequence is absent or empty; otherwise it returns indices with
`0 <= l <= r <= size - 1` and `r - l <= 1`, both of which are indices of the sequence, and
`getFrame` returns a value. -/
theorem bisect_total_in_bounds {K Q : Type} [HasFrame K] (remap : Option (List K))
    (f : Int) (q : ℚ) (trans : K → Q) (inter : K → K → ℚ → Q) (d : Q) :
    (∃ l r : Int, bisect remap f = some (l, r) ∧
      ((l = -1 ∧ r = -1) ↔ (remap = none ∨ remap = some [])) ∧
      (∀ keys : List K, remap = some keys → keys ≠ [] →
        0 ≤ l ∧ l ≤ r ∧ r ≤ (keys.length : Int) - 1 ∧ r - l ≤ 1 ∧
        ∃ kl kr : K, keys[l.toNat]? = some kl ∧ keys[r.toNat]? = some kr)) ∧
    (∃ v, getFrame remap q trans inter d = some v) := by
  refine ⟨?_, getFrame_total remap q trans inter d⟩
  cases remap with
  | none =>
    refine ⟨-1, -1, rfl, by simp, ?_⟩
    intro keys h
    simp at h
  | some keys =>
    by_cases hne : keys = []
    · subst hne
      refine ⟨-1, -1, by simp [bisect], by simp, ?_⟩
      intro keys h hk
      simp only [Option.some.injEq] at h
      exact absurd h.symm hk
    · obtain ⟨l, hl, _, hcase⟩ := bisect_nonempty keys f hne
      rcases hcase with ⟨h1, h2, _⟩ | ⟨h1, h2⟩
      · refine ⟨(l : Int), ((l + 1 : Nat) : Int), h2, ?_, ?_⟩
        · constructor
          · intro h
            omega
          · intro h
            simp [hne] at h
        · intro keys1 hk _
          simp only [Option.some.injEq] at hk
          subst hk
          refine ⟨by omega, by omega, by omega, by omega, keys[l], keys[l + 1], ?_, ?_⟩
          · simp [List.getElem?_eq_getElem hl]
          · simp [List.getElem?_eq_getElem h1]
      · refine ⟨(l : Int), (l : Int), h2, ?_, ?_⟩
        · constructor
          · intro h
            omega
          · intro h
            simp [hne] at h
        · intro keys1 hk _
          simp only [Option.some.injEq] at hk
          subst hk
          refine ⟨by omega, by omega, by omega, by omega, keys[l], keys[l], ?_, ?_⟩
          · simp [List.getElem?_eq_getElem hl]
          · simp [List.getElem?_eq_getElem hl]

/-! ### Fractional query frames -/

/-- Search on a sorted sequence at the frame of keyframe `i`, when no later keyframe has
that frame: the left index is `i`. -/
theorem bisect_tie_last {K : Type} [HasFrame K] (keys : List K) (i : Nat) (k : K)
    (hs : SortedByFrame keys) (hi : keys[i]? = some k)
    (hlast : ∀ k1 : K, keys[i + 1]? = some k1 → HasFrame.frame k < HasFrame.frame k1) :
    bisect (some keys) (HasFrame.frame k) =
      some ((i : Int), ((if i + 1 < keys.length then i + 1 else i : Nat) : Int)) := by
  have hlt : i < keys.length := (List.getElem?_eq_some_iff.mp hi).1
  have hne : keys ≠ [] := List.ne_nil_of_length_pos (by omega)
  have hfi : frameAt keys i = HasFrame.frame k := frameAt_of_getElem? hi
  have h0 : frameAt keys 0 ≤ HasFrame.frame k := by
    rw [← hfi]
    exact frameAt_mono hs (Nat.zero_le i) hlt
  obtain ⟨hA, hB⟩ := bisect_sorted keys (HasFrame.frame k) hne hs h0
  by_cases hnext : i + 1 < keys.length
  · rw [if_pos hnext]
    have hk1 : keys[i + 1]? = some keys[i + 1] := List.getElem?_eq_getElem hnext
    have hf1 : HasFrame.frame k < frameAt keys (i + 1) := by
      rw [frameAt_of_getElem? hk1]
      exact hlast _ hk1
    have hf : HasFrame.frame k < frameAt keys (keys.length - 1) :=
      lt_of_lt_of_le hf1 (frameAt_mono hs (by omega) (by omega))
    obtain ⟨l, h1, h2, h3, h4⟩ := hB hf
    have hli : l = i := by
      rcases Nat.lt_trichotomy l i with h | h | h
      · have := frameAt_mono hs (show l + 1 ≤ i by omega) hlt
        omega
      · exact h
      · have := frameAt_mono hs (show i + 1 ≤ l by omega) (show l < keys.length by omega)
        omega
    rw [h2, hli]
  · rw [if_neg hnext]
    have hil : keys.length - 1 = i := by omega
    have := hA (by rw [hil, hfi])
    rw [this, hil]

/-- Sampling a sorted sequence at a frame shared by several keyframes returns the value of
the last of them, for any `inter` that agrees with `trans` at `s = 0`. -/
theorem getFrame_tie_last {K Q : Type} [HasFrame K] (keys : List K) (i : Nat) (k : K)
    (trans : K → Q) (inter : K → K → ℚ → Q) (d : Q)
    (hinter : ∀ l r, inter l r 0 = trans l)
    (hs : SortedByFrame keys) (hi : keys[i]? = some k)
    (hlast : ∀ k1 : K, keys[i + 1]? = some k1 → HasFrame.frame k < HasFrame.frame k1) :
    getFrame (some keys) (HasFrame.frame k : ℚ) trans inter d = some (trans k) := by
  have hb := bisect_tie_last keys i k hs hi hlast
  rw [← truncInt_intCast (HasFrame.frame k)] at hb
  by_cases hnext : i + 1 < keys.length
  · rw [if_pos hnext] at hb
    have hr : keys[i + 1]? = some keys[i + 1] := List.getElem?_eq_getElem hnext
    rw [getFrame_of_pair keys _ i (i + 1) k keys[i + 1] trans inter d hb (by omega) hi hr]
    simp [hinter]
  · rw [if_neg hnext] at hb
    exact getFrame_of_same keys _ i k trans inter d hb hi

/-- C14 (counterexample): in the sorted morph channel `tiedFaces` keyframes 0 and 1 share
frame 5, with weights 1 and 2.  The search at frame 5 returns left index 1, not 0, and
sampling returns weight 2, not the first keyframe's weight 1. -/
theorem tie_resolves_not_to_first :
    SortedByFrame tiedFaces ∧
    tiedFaces[0]? = some ⟨5, 1⟩ ∧ tiedFaces[1]? = some ⟨5, 2⟩ ∧
    bisect (some tiedFaces) 5 = some ((1 : Int), (2 : Int)) ∧
    getFrame (some tiedFaces) ((5 : Int) : ℚ) toFloat interFace 0 = some 2 ∧
    getFrame (some tiedFaces) ((5 : Int) : ℚ) toFloat interFace 0 ≠ some (toFloat ⟨5, 1⟩) := by
  have hb : bisect (some tiedFaces) 5 = some ((1 : Int), (2 : Int)) := by
    simp [bisect, bisectLoop, tiedFaces, HasFrame.frame]
  have hg : getFrame (some tiedFaces) ((5 : Int) : ℚ) toFloat interFace 0 = some 2 := by
    rw [getFrame_of_pair tiedFaces _ 1 2 ⟨5, 2⟩ ⟨10, 3⟩ toFloat interFace 0
      (by rw [truncInt_intCast]; exact hb) (by decide) (by simp [tiedFaces])
      (by simp [tiedFaces])]
    norm_num [interFace, mix, HasFrame.frame]
  refine ⟨by simp [SortedByFrame, tiedFaces, HasFrame.frame], by simp [tiedFaces],
    by simp [tiedFaces], hb, hg, ?_⟩
  rw [hg]
  norm_num [toFloat]

/-- C14 (amended): in a keyframe sequence sorted ascending by frame, the search at the
frame `f` of keyframe `i`, when `i` is the last (highest-index) keyframe with that frame,
returns left index `i`, and sampling at `f` returns that last keyframe's value: its
`scalar` on a morph channel, `toMat4` of it on a bone channel (`glm::slerp` being a
parameter that returns its first argument at weight `0`).  Ties resolve to the last
keyframe sharing the frame. -/
theorem tie_resolves_to_last (slerp : Quat → Quat → ℚ → Quat)
    (hslerp : ∀ a b, slerp a b 0 = a)
    (faces : List vmd.Face) (bones : List vmd.Keyframe) (i j : Nat)
    (fk : vmd.Face) (bk : vmd.Keyframe)
    (hf : SortedByFrame faces) (hb : SortedByFrame bones)
    (hi : faces[i]? = some fk) (hj : bones[j]? = some bk)
    (hilast : ∀ k1 : vmd.Face, faces[i + 1]? = some k1 → fk.frame < k1.frame)
    (hjlast : ∀ k1 : vmd.Keyframe, bones[j + 1]? = some k1 → bk.frame < k1.frame) :
    (bisect (some faces) fk.frame =
        some ((i : Int), ((if i + 1 < faces.length then i + 1 else i : Nat) : Int)) ∧
      getFrame (some faces) (fk.frame : ℚ) toFloat interFace 0 = some fk.scalar) ∧
    (bisect (some bones) bk.frame =
        some ((j : Int), ((if j + 1 < bones.length then j + 1 else j : Nat) : Int)) ∧
      getFrame (some bones) (bk.frame : ℚ) toMat4 (interBone slerp) 1 = some (toMat4 bk)) :=
  ⟨⟨bisect_tie_last faces i fk hf hi hilast,
      getFrame_tie_last faces i fk toFloat interFace 0 interFace_zero hf hi hilast⟩,
    ⟨bisect_tie_last bones j bk hb hj hjlast,
      getFrame_tie_last bones j bk toMat4 (interBone slerp) 1 (interBone_zero slerp hslerp)
        hb hj hjlast⟩⟩

/-- C14 (amended) at the tied sample channels: morph keyframe 1 and bone keyframe 1 are
the last keyframes at frame 5. -/
theorem tie_resolves_to_last_witness :
    (bisect (some tiedFaces) 5 = some ((1 : Int), (2 : Int)) ∧
      getFrame (some tiedFaces) ((5 : Int) : ℚ) toFloat interFace 0 = some 2) ∧
    (bisect (some tiedBones) 5 = some ((1 : Int), (1 : Int)) ∧
      getFrame (some tiedBones) ((5 : Int) : ℚ) toMat4 (interBone lerpQuat) 1 =
        some (toMat4 ⟨5, ⟨2, 0, 0⟩, ⟨0, 0, 0, 1⟩⟩)) :=
  tie_resolves_to_last lerpQuat lerpQuat_zero tiedFaces tiedBones 1 1
    ⟨5, 2⟩ ⟨5, ⟨2, 0, 0⟩, ⟨0, 0, 0, 1⟩⟩
    (by simp [SortedByFrame, tiedFaces, HasFrame.frame])
    (by simp [SortedByFrame, tiedBones, HasFrame.frame])
    (by simp [tiedFaces]) (by simp [tiedBones])
    (by
      intro k1 hk1
      simp only [tiedFaces, List.getElem?_cons_succ, List.getElem?_cons_zero,
        Option.some.injEq] at hk1
      subst hk1
      decide)
    (by
      intro k1 hk1
      simp [tiedBones] at hk1)

/-! ### `Rigid::load` and `BodyImp::loadModel` -/

/-- What `createRigid` builds, when it succeeds. -/
theorem createRigid_some {W : Type} (bullet : BulletOps W) (base : pmx.Rigid)
    (W0 S0i Ti : Mat4) (rg : Rigid)
    (h : Rigid.createRigid bullet base W0 S0i Ti = some rg) :
    rg.base = base ∧ rg.W0 = W0 ∧ rg.S0i = S0i ∧ rg.Ti = Ti ∧ rg.motion = gl2bt W0 ∧
      rg.bt.mass = (if base.mode = 0 then 0 else base.mass) ∧
      rg.bt.kinematicObject = decide (base.mode = 0) := by
  unfold Rigid.createRigid at h
  simp only [] at h
  split at h
  · exact absurd h (by simp)
  · simp only [Option.some.injEq] at h
    subst h
    simp

/-- What `Rigid::load` computes, when it succeeds: the descriptor, the bind-pose
transform `W0`, the motion proxy at `W0`, the mass, and for a bone-linked descriptor the
correction transforms built from the bone and its parent. -/
theorem load_some {W : Type} (bullet : BulletOps W) (eulerQuat : Vec3 → Quat)
    (model : pmx.Model) (index : Nat) (rg : Rigid)
    (h : Rigid.load bullet eulerQuat model index = some rg) :
    model.rigids[index]? = some rg.base ∧
      rg.W0 = translate rg.base.position * mat4_cast (eulerQuat rg.base.rotation) ∧
      rg.motion = gl2bt rg.W0 ∧
      rg.bt.mass = (if rg.base.mode = 0 then 0 else rg.base.mass) ∧
      (0 ≤ rg.base.bone →
        ∃ bn : pmx.Bone, model.bones[rg.base.bone.toNat]? = some bn ∧
          rg.S0i = inverse rg.W0 * translate bn.position ∧
          ((bn.parent < 0 ∧ rg.Ti = translate (Vec3.neg bn.position)) ∨
            (0 ≤ bn.parent ∧ ∃ pb : pmx.Bone, model.bones[bn.parent.toNat]? = some pb ∧
              rg.Ti = translate (Vec3.add (Vec3.neg bn.position) pb.position)))) ∧
      (rg.base.bone < 0 → rg.Ti = 1 ∧ rg.S0i = inverse rg.W0) := by
  unfold Rigid.load at h
  cases hbase : model.rigids[index]? with
  | none => simp [hbase] at h
  | some base =>
    simp only [hbase] at h
    by_cases hbone : base.bone ≥ 0
    · rw [if_pos hbone] at h
      cases hbn : model.bones[base.bone.toNat]? with
      | none => simp [hbn] at h
      | some bn =>
        simp only [hbn] at h
        by_cases hpar : bn.parent ≥ 0
        · rw [if_pos hpar] at h
          cases hpb : model.bones[bn.parent.toNat]? with
          | none => simp [hpb] at h
          | some pb =>
            simp only [hpb] at h
            obtain ⟨h1, h2, h3, h4, h5, h6, _⟩ := createRigid_some bullet base _ _ _ rg h
            rw [h1]
            refine ⟨rfl, h2, by rw [h5, h2], h6, ?_, ?_⟩
            · intro _
              exact ⟨bn, hbn, by rw [h3, h2], Or.inr ⟨hpar, pb, hpb, h4⟩⟩
            · intro hneg
              omega
        · rw [if_neg hpar] at h
          obtain ⟨h1, h2, h3, h4, h5, h6, _⟩ := createRigid_some bullet base _ _ _ rg h
          rw [h1]
          refine ⟨rfl, h2, by rw [h5, h2], h6, ?_, ?_⟩
          · intro _
            exact ⟨bn, hbn, by rw [h3, h2], Or.inl ⟨by omega, h4⟩⟩
          · intro hneg
            omega
    · rw [if_neg hbone] at h
      obtain ⟨h1, h2, h3, h4, h5, h6, _⟩ := createRigid_some bullet base _ _ _ rg h
      rw [h1]
      refine ⟨rfl, h2, by rw [h5, h2], h6, ?_, ?_⟩
      · intro hpos
        omega
      · intro _
        exact ⟨h4, by rw [h3, h2]⟩

/-- The loop of `BodyImp::loadModel` from index `i` on, when it succeeds: it appends one
loaded binding per descriptor and registers each with the group bit and the mask. -/
theorem loadModel_loop {W : Type} (bullet : BulletOps W) (eulerQuat : Vec3 → Quat)
    (model : pmx.Model) (body : Nat → BodyImp W → Option (BodyImp W))
    (hbody : ∀ i b, body i b =
      match Rigid.load bullet eulerQuat model i with
      | none => none
      | some rg =>
        some
          { b with
            rigids := b.rigids ++ [rg]
            world := bullet.addRigidBody b.world rg.bt
              ((1 <<< rg.base.group : Nat) : Int) rg.base.mask }) :
    ∀ (k i : Nat) (b b1 : BodyImp W), forFromM body k i b = some b1 →
      ∃ rgs : List Rigid, rgs.length = k ∧
        (∀ j rg, rgs[j]? = some rg → Rigid.load bullet eulerQuat model (i + j) = some rg) ∧
        b1.rigids = b.rigids ++ rgs ∧ b1.model = b.model ∧
        b1.world = rgs.foldl
          (fun w rg => bullet.addRigidBody w rg.bt ((1 <<< rg.base.group : Nat) : Int)
            rg.base.mask) b.world := by
  intro k
  induction k with
  | zero =>
    intro i b b1 h
    simp only [forFromM, Option.some.injEq] at h
    subst h
    exact ⟨[], rfl, by simp, by simp, rfl, rfl⟩
  | succ k ih =>
    intro i b b1 h
    simp only [forFromM, hbody] at h
    cases hload : Rigid.load bullet eulerQuat model i with
    | none => simp [hload] at h
    | some rg =>
      simp only [hload] at h
      obtain ⟨rgs, h1, h2, h3, h4, h5⟩ := ih (i + 1) _ b1 h
      refine ⟨rg :: rgs, by simp [h1], ?_, by simp [h3], h4, by simp [h5]⟩
      intro j rg1 hj
      cases j with
      | zero =>
        simp only [List.getElem?_cons_zero, Option.some.injEq] at hj
        subst hj
        exact hload
      | succ j =>
        simp only [List.getElem?_cons_succ] at hj
        have := h2 j rg1 hj
        rw [show i + (j + 1) = i + 1 + j by omega]
        exact this

/-- What `BodyImp::loadModel` leaves, when it succeeds: one binding per descriptor, each
the result of `Rigid::load` at its index, and a world that has received one
`addRigidBody(bt, 1 << group, mask)` per binding, in order. -/
theorem loadModel_some {W : Type} (bullet : BulletOps W) (eulerQuat : Vec3 → Quat)
    (model : pmx.Model) (b b1 : BodyImp W)
    (h : BodyImp.loadModel bullet eulerQuat model b = some b1) :
    b1.rigids.length = model.rigids.length ∧
      (∀ j rg, b1.rigids[j]? = some rg → Rigid.load bullet eulerQuat model j = some rg) ∧
      b1.model = some model ∧
      b1.world = b1.rigids.foldl
        (fun w rg => bullet.addRigidBody w rg.bt ((1 <<< rg.base.group : Nat) : Int)
          rg.base.mask) b.world := by
  obtain ⟨rgs, h1, h2, h3, h4, h5⟩ :=
    loadModel_loop bullet eulerQuat model _ (fun _ _ => rfl) model.rigids.length 0 _ b1 h
  simp only [List.nil_append] at h3
  rw [h3]
  refine ⟨h1, ?_, h4, h5⟩
  intro j rg hj
  have := h2 j rg hj
  rw [Nat.zero_add] at this
  exact this

/-! ### Loading succeeds on loadable descriptors -/

theorem createRigid_total {W : Type} (bullet : BulletOps W) (base : pmx.Rigid)
    (W0 S0i Ti : Mat4) (h : base.shape = .other → base.mode = 0 ∨ base.mass ≤ 0) :
    ∃ rg, Rigid.createRigid bullet base W0 S0i Ti = some rg := by
  unfold Rigid.createRigid
  simp only []
  by_cases hmass : (if decide (base.mode = 0) = true then (0 : ℚ) else base.mass) > 0
  · have hshape : base.shape ≠ .other := by
      intro hs
      rcases h hs with hk | hm
      · simp [hk] at hmass
      · by_cases hk : base.mode = 0
        · simp [hk] at hmass
        · simp only [hk, decide_False, Bool.false_eq_true, if_false] at hmass
          exact absurd hmass (not_lt.mpr hm)
    rw [if_pos hmass]
    cases hsh : base.shape with
    | RigidBox => exact ⟨_, rfl⟩
    | RigidSphere => exact ⟨_, rfl⟩
    | RigidCapsule => exact ⟨_, rfl⟩
    | other => exact absurd hsh hshape
  · rw [if_neg hmass]
    exact ⟨_, rfl⟩

theorem load_total {W : Type} (bullet : BulletOps W) (eulerQuat : Vec3 → Quat)
    (model : pmx.Model) (index : Nat) (base : pmx.Rigid)
    (hbase : model.rigids[index]? = some base) (h : Loadable model base) :
    ∃ rg, Rigid.load bullet eulerQuat model index = some rg := by
  obtain ⟨hbone, hshape⟩ := h
  unfold Rigid.load
  simp only [hbase]
  by_cases hb : base.bone ≥ 0
  · obtain ⟨bn, hbn, hpar⟩ := hbone hb
    rw [if_pos hb]
    simp only [hbn]
    by_cases hp : bn.parent ≥ 0
    · obtain ⟨pb, hpb⟩ := hpar hp
      rw [if_pos hp]
      simp only [hpb]
      exact createRigid_total bullet base _ _ _ hshape
    · rw [if_neg hp]
      exact createRigid_total bullet base _ _ _ hshape
  · rw [if_neg hb]
    exact createRigid_total bullet base _ _ _ hshape

/-- A loop whose body succeeds at every index it visits succeeds. -/
theorem forFromM_total {σ : Type} (body : Nat → σ → Option σ) :
    ∀ (k i : Nat) (s : σ), (∀ j s1, i ≤ j → j < i + k → ∃ s2, body j s1 = some s2) →
      ∃ s2, forFromM body k i s = some s2 := by
  intro k
  induction k with
  | zero =>
    intro i s _
    exact ⟨s, rfl⟩
  | succ k ih =>
    intro i s h
    obtain ⟨s1, hs1⟩ := h i s (le_refl i) (by omega)
    simp only [forFromM, hs1]
    exact ih (i + 1) s1 (fun j s2 h1 h2 => h j s2 (by omega) (by omega))

/-- On a model all of whose descriptors are loadable, `BodyImp::loadModel` succeeds. -/
theorem loadModel_total {W : Type} (bullet : BulletOps W) (eulerQuat : Vec3 → Quat)
    (model : pmx.Model) (b : BodyImp W) (hwf : ∀ base ∈ model.rigids, Loadable model base) :
    ∃ b1, BodyImp.loadModel bullet eulerQuat model b = some b1 := by
  unfold BodyImp.loadModel forLoopM
  apply forFromM_total
  intro j s1 _ hj
  have hjl : j < model.rigids.length := by omega
  obtain ⟨rg, hrg⟩ := load_total bullet eulerQuat model j model.rigids[j]
    (List.getElem?_eq_getElem hjl) (hwf _ (List.getElem_mem hjl))
  simp only [hrg]
  exact ⟨_, rfl⟩

theorem sampleModel_loadable : ∀ base ∈ sampleModel.rigids, Loadable sampleModel base := by
  intro base hb
  simp only [sampleModel, List.mem_cons, List.mem_singleton, List.not_mem_nil, or_false] at hb
  rcases hb with h | h <;> subst h <;>
    exact ⟨fun _ => ⟨_, rfl, fun _ => ⟨_, rfl⟩⟩, fun h => by simp at h⟩

/-- The loop of `BodyImp::resetPose` is a pointwise rewrite of the bindings. -/
theorem resetPose_rigids {W : Type} (b : BodyImp W) :
    (BodyImp.resetPose b).rigids =
      b.rigids.map (fun rg => { rg with bt := rg.bt.clearForces, motion := gl2bt rg.W0 }) := by
  simp only [BodyImp.resetPose]
  apply forLoop_set_eq_map
  intro i xs x hx
  simp only [hx]

theorem translate_mul_cast_bottom (p : Vec3) (q : Quat) (j : Fin 4) :
    (translate p * mat4_cast q) 3 j = if j = 3 then 1 else 0 := by
  fin_cases j <;> simp [Matrix.mul_apply, Fin.sum_univ_four, translate, mat4_cast]

/-- A bind-pose transform `translate(p) * mat4_cast(q)` survives the conversion to a
physics transform and back. -/
theorem bt2gl_gl2bt_bind (p : Vec3) (q : Quat) :
    bt2gl (gl2bt (translate p * mat4_cast q)) = translate p * mat4_cast q := by
  ext i j
  rw [bt2gl_gl2bt_apply]
  by_cases hi : i = 3
  · subst hi
    rw [if_pos rfl, translate_mul_cast_bottom]
  · rw [if_neg hi]

/-- C13 (counterexample): loading `masslessModel`, whose descriptor has collision group 3
and mask 65535, registers the body with group `8 = 1 << 3`, not with the group value 3. -/
theorem registered_group_is_not_descriptor_group :
    masslessModel.rigids.map (fun base => ((base.group : Int), base.mask)) = [(3, 65535)] ∧
    ∃ b1 : BodyImp (List (Int × Int)),
      BodyImp.loadModel recordingBullet sampleEulerQuat masslessModel ⟨none, [], []⟩ =
        some b1 ∧
      b1.world = [(8, 65535)] ∧
      b1.world ≠ masslessModel.rigids.map (fun base => ((base.group : Int), base.mask)) :=
  ⟨rfl, _, rfl, rfl, by decide⟩

theorem shiftLeft_one_isInt32 (group : Nat) (h : group < 31) :
    IsInt32 ((1 <<< group : Nat) : Int) := by
  have h1 : (1 <<< group : Nat) = 2 ^ group := by
    rw [Nat.shiftLeft_eq, Nat.one_mul]
  have h2 : 2 ^ group ≤ 2 ^ 30 := Nat.pow_le_pow_right (by decide) (by omega)
  have h3 : (2 : Nat) ^ 30 = 1073741824 := by norm_num
  have key : ∀ n : Nat, n ≤ 1073741824 → IsInt32 (n : Int) :=
    fun n hn => ⟨by omega, by omega⟩
  exact key _ (by rw [h1, ← h3]; exact h2)

/-- C13 (amended): on a model all of whose descriptors are loadable and have a group index
below 31, `BodyImp::loadModel` succeeds; there is then one binding per descriptor, binding
`i` holding descriptor `i`, and the world has received, in descriptor order, one
`addRigidBody` per binding with the collision group `1 << group`, the bit of the
descriptor's group index (a value of `int`, so the shift of the source does not
overflow), and a collision mask that is the descriptor's mask value. -/
theorem loadModel_registers_group_bit {W : Type} (bullet : BulletOps W)
    (eulerQuat : Vec3 → Quat) (model : pmx.Model) (b : BodyImp W)
    (hwf : ∀ base ∈ model.rigids, Loadable model base)
    (hgroup : ∀ base ∈ model.rigids, base.group < 31) :
    ∃ b1 : BodyImp W, BodyImp.loadModel bullet eulerQuat model b = some b1 ∧
      b1.rigids.length = model.rigids.length ∧
      (∀ (i : Nat) (rg : Rigid), b1.rigids[i]? = some rg →
        model.rigids[i]? = some rg.base ∧ IsInt32 ((1 <<< rg.base.group : Nat) : Int)) ∧
      b1.world = b1.rigids.foldl
        (fun w rg => bullet.addRigidBody w rg.bt ((1 <<< rg.base.group : Nat) : Int)
          rg.base.mask) b.world := by
  obtain ⟨b1, hload⟩ := loadModel_total bullet eulerQuat model b hwf
  obtain ⟨h1, h2, _, h4⟩ := loadModel_some bullet eulerQuat model b b1 hload
  refine ⟨b1, hload, h1, ?_, h4⟩
  intro i rg hrg
  have hbase := (load_some bullet eulerQuat model i rg (h2 i rg hrg)).1
  refine ⟨hbase, shiftLeft_one_isInt32 _ (hgroup _ ?_)⟩
  obtain ⟨hi, heq⟩ := List.getElem?_eq_some_iff.mp hbase
  rw [← heq]
  exact List.getElem_mem hi

/-- C13 (amended) at the sample model over the recording world: both descriptors are in
group 0 and are registered with group bit 1. -/
theorem loadModel_registers_group_bit_witness :
    (sampleModel.rigids.map fun base => ((base.group : Int), base.mask)) =
      [(0, 65535), (0, 65535)] ∧
    ∃ b1 : BodyImp (List (Int × Int)),
      BodyImp.loadModel recordingBullet sampleEulerQuat sampleModel ⟨none, [], []⟩ = some b1 ∧
      b1.rigids.length = sampleModel.rigids.length ∧
      (∀ (i : Nat) (rg : Rigid), b1.rigids[i]? = some rg →
        sampleModel.rigids[i]? = some rg.base ∧
          IsInt32 ((1 <<< rg.base.group : Nat) : Int)) ∧
      b1.world = b1.rigids.foldl
        (fun w rg => recordingBullet.addRigidBody w rg.bt ((1 <<< rg.base.group : Nat) : Int)
          rg.base.mask) [] :=
  ⟨rfl,
    loadModel_registers_group_bit recordingBullet sampleEulerQuat sampleModel ⟨none, [], []⟩
      sampleModel_loadable
      (by
        intro base hb
        simp only [sampleModel, List.mem_cons, List.mem_singleton, List.not_mem_nil,
          or_false] at hb
        rcases hb with h | h <;> subst h <;> decide)⟩

/-- C15 (counterexample): the only descriptor of `masslessModel` is dynamic (`mode = 1`)
and has mass 0; `Rigid::load` builds a body of mass 0 for it, so a non-kinematic body
need not have positive mass and mass zero is not confined to kinematic mode. -/
theorem dynamic_body_can_have_zero_mass :
    ∃ rg : Rigid, Rigid.load idleBullet sampleEulerQuat masslessModel 0 = some rg ∧
      rg.base.mode ≠ 0 ∧ rg.bt.mass = 0 ∧ ¬ (0 < rg.bt.mass) :=
  ⟨_, rfl, by decide, rfl, by decide⟩

/-- C15 (amended): the rigid body that `Rigid::load` constructs has mass zero for a
kinematic descriptor and the descriptor's own mass for every other mode; so for a
non-kinematic descriptor the mass is strictly greater than zero exactly when the
descriptor's mass is. -/
theorem load_mass_is_descriptor_mass {W : Type} (bullet : BulletOps W)
    (eulerQuat : Vec3 → Quat) (model : pmx.Model) (index : Nat) (rg : Rigid)
    (hload : Rigid.load bullet eulerQuat model index = some rg) :
    (rg.base.mode = 0 → rg.bt.mass = 0) ∧
    (rg.base.mode ≠ 0 → rg.bt.mass = rg.base.mass) ∧
    (rg.base.mode ≠ 0 → (0 < rg.bt.mass ↔ 0 < rg.base.mass)) := by
  obtain ⟨_, _, _, hmass, _, _⟩ := load_some bullet eulerQuat model index rg hload
  refine ⟨?_, ?_, ?_⟩
  · intro h
    rw [hmass, if_pos h]
  · intro h
    rw [hmass, if_neg h]
  · intro h
    rw [hmass, if_neg h]

/-- C15 (amended) at the sample model: descriptor 1 is dynamic with mass 1. -/
theorem load_mass_is_descriptor_mass_witness :
    ∃ rg : Rigid, Rigid.load idleBullet sampleEulerQuat sampleModel 1 = some rg ∧
      rg.bt.mass = 1 ∧
      (rg.base.mode = 0 → rg.bt.mass = 0) ∧
      (rg.base.mode ≠ 0 → rg.bt.mass = rg.base.mass) ∧
      (rg.base.mode ≠ 0 → (0 < rg.bt.mass ↔ 0 < rg.base.mass)) :=
  ⟨_, rfl, rfl, load_mass_is_descriptor_mass idleBullet sampleEulerQuat sampleModel 1 _ rfl⟩

/-! ### The pose pull at bind pose -/

theorem inverse_eq_inv (m : Mat4) : inverse m = m⁻¹ := by
  rw [inverse, Matrix.inv_def, Ring.inverse_eq_inv']

theorem translate_mul_translate (a b : Vec3) :
    translate a * translate b = translate (Vec3.add a b) := by
  ext i j
  fin_cases i <;> fin_cases j <;>
    simp [translate, Vec3.add, Matrix.mul_apply, Fin.sum_univ_four, Matrix.vecHead,
      Matrix.vecTail, add_comm]

theorem translate_zero : translate ⟨0, 0, 0⟩ = 1 := by
  ext i j
  fin_cases i <;> fin_cases j <;> simp [translate, Matrix.vecHead, Matrix.vecTail]

theorem translate_add_neg (a : Vec3) : translate (Vec3.add a (Vec3.neg a)) = 1 := by
  rw [← translate_zero]
  simp [Vec3.add, Vec3.neg]

theorem translate_neg_add (a : Vec3) : translate (Vec3.add (Vec3.neg a) a) = 1 := by
  rw [← translate_zero]
  simp [Vec3.add, Vec3.neg]

theorem inverse_translate (v : Vec3) : inverse (translate v) = translate (Vec3.neg v) := by
  rw [inverse_eq_inv]
  apply Matrix.inv_eq_right_inv
  rw [translate_mul_translate, translate_add_neg]

theorem mul_inverse_cancel (m : Mat4) (h : Matrix.det m ≠ 0) : m * inverse m = 1 := by
  rw [inverse_eq_inv]
  exact Matrix.mul_nonsing_inv m (isUnit_iff_ne_zero.mpr h)

/-- C16: only the physics-induced delta from bind pose reaches the bone.  For a binding
that `Rigid::load` has loaded, bone-linked and not kinematic, with an invertible `W0`:
if the simulated world transform `W = bt2gl(Wt)` read from the motion proxy equals `W0`,
and the bone has no parent or the armature's world transform of the parent is
`translate(parent bind position)`, then the local transform `Ti * Pi * W * S0i` that
`updateBone` applies is the identity. -/
theorem updateBone_identity_at_bind_pose {A W : Type} (ops : ArmatureOps A)
    (bullet : BulletOps W) (eulerQuat : Vec3 → Quat) (model : pmx.Model) (index : Nat)
    (rg : Rigid) (arm : A) (Wt : BtTransform)
    (hload : Rigid.load bullet eulerQuat model index = some rg)
    (hlinked : rg.isPhysicsLinked)
    (hdet : Matrix.det rg.W0 ≠ 0)
    (hW : bt2gl Wt = rg.W0)
    (hparent : ∀ bn pb : pmx.Bone, model.bones[rg.base.bone.toNat]? = some bn →
      0 ≤ bn.parent → model.bones[bn.parent.toNat]? = some pb →
      ops.global arm bn.parent = translate pb.position) :
    boneLocal ops model arm { rg with motion := Wt } = 1 ∧
    rg.Ti * parentInverse ops model arm rg.base.bone * bt2gl Wt * rg.S0i = 1 := by
  have key : rg.Ti * parentInverse ops model arm rg.base.bone * bt2gl Wt * rg.S0i = 1 := by
    obtain ⟨_, _, _, _, hbone, _⟩ := load_some bullet eulerQuat model index rg hload
    obtain ⟨bn, hbn, hS, hT⟩ := hbone hlinked.1
    rw [hW, hS]
    simp only [parentInverse, hbn]
    rcases hT with ⟨hneg, hTi⟩ | ⟨hpos, pb, hpb, hTi⟩
    · rw [if_neg (by omega), hTi, mul_one, mul_assoc, ← mul_assoc rg.W0,
        mul_inverse_cancel rg.W0 hdet, one_mul, translate_mul_translate, translate_neg_add]
    · rw [if_pos hpos, hparent bn pb hbn hpos hpb, inverse_translate, hTi,
        translate_mul_translate, mul_assoc, ← mul_assoc rg.W0, mul_inverse_cancel rg.W0 hdet,
        one_mul, translate_mul_translate, ← translate_zero]
      simp [Vec3.add, Vec3.neg]
  exact ⟨key, key⟩

theorem mat4_cast_identity : mat4_cast ⟨1, 0, 0, 0⟩ = 1 := by
  ext i j
  fin_cases i <;> fin_cases j <;> simp [mat4_cast, Matrix.vecHead, Matrix.vecTail]

theorem det_translate_ne_zero (v : Vec3) : Matrix.det (translate v) ≠ 0 := by
  have h : translate v * translate (Vec3.neg v) = 1 := by
    rw [translate_mul_translate, translate_add_neg]
  exact (Matrix.isUnit_det_of_right_inverse h).ne_zero

theorem det_bind_identity (p r : Vec3) :
    Matrix.det (translate p * mat4_cast (sampleEulerQuat r)) ≠ 0 := by
  rw [sampleEulerQuat, mat4_cast_identity, mul_one]
  exact det_translate_ne_zero p

/-- C16 at the sample model: descriptor 1 is dynamic on bone `tail`, whose parent `root`
sits at the origin, where the recording armature keeps every bone. -/
theorem updateBone_identity_at_bind_pose_witness :
    ∃ rg : Rigid, Rigid.load idleBullet sampleEulerQuat sampleModel 1 = some rg ∧
      rg.isPhysicsLinked ∧
      boneLocal recordingArmature sampleModel [] { rg with motion := gl2bt rg.W0 } = 1 ∧
      rg.Ti * parentInverse recordingArmature sampleModel [] rg.base.bone *
        bt2gl (gl2bt rg.W0) * rg.S0i = 1 :=
  ⟨_, rfl, ⟨by decide, by decide⟩,
    updateBone_identity_at_bind_pose recordingArmature idleBullet sampleEulerQuat sampleModel 1
      _ [] _ rfl ⟨by decide, by decide⟩ (det_bind_identity _ _) (bt2gl_gl2bt_bind _ _)
      (by
        intro bn pb hbn _ hpb
        have hb : bn = ⟨"tail", ⟨0, 1, 0⟩, 0⟩ := by
          have h1 : sampleModel.bones[(1 : Int).toNat]? = some bn := hbn
          simpa [sampleModel] using h1.symm
        subst hb
        have hp : pb = ⟨"root", ⟨0, 0, 0⟩, -1⟩ := by
          have h1 : sampleModel.bones[(0 : Int).toNat]? = some pb := hpb
          simpa [sampleModel] using h1.symm
        subst hp
        exact translate_zero.symm)⟩

/-! ### `resetMotion` -/

namespace MotionImp

variable {A W : Type}

theorem poseInv_create (a0 : A) (w0 : W) : (create a0 w0).PoseInv :=
  ⟨inv_create a0 w0, fun _ => ⟨rfl, rfl⟩⟩

theorem loadModel_model (ops : ArmatureOps A) (bullet : BulletOps W) (m : pmx.Model)
    (s : MotionImp A W) : (loadModel ops bullet m s).model = some m := by
  cases hmod : s.model <;> cases hmot : s.motion <;>
    simp [loadModel, resetModel, unmap, remap, hmod, hmot]

theorem poseInv_step (ops : ArmatureOps A) (bullet : BulletOps W)
    (slerp : Quat → Quat → ℚ → Quat) (s s1 : MotionImp A W) (o : MotionOp) (h : s.PoseInv)
    (hs : step ops bullet slerp s o = some s1) : s1.PoseInv := by
  refine ⟨inv_step ops bullet slerp s s1 o h.1 hs, ?_⟩
  obtain ⟨hinv, hpose⟩ := h
  cases o with
  | loadModel m =>
    simp only [step, Option.some.injEq] at hs
    subst hs
    intro hnone
    rw [loadModel_model] at hnone
    exact absurd hnone (by simp)
  | loadMotion v =>
    simp only [step, Option.some.injEq] at hs
    subst hs
    cases hmod : s.model with
    | none =>
      obtain ⟨h1, h2⟩ := hpose hmod
      intro _
      cases hmot : s.motion <;>
        simp [loadMotion, resetMotion, resetPose, unmap, hmod, hmot, h1, h2]
    | some m0 =>
      intro hnone
      cases hmot : s.motion <;>
        simp [loadMotion, resetMotion, resetPose, unmap, remap, hmod, hmot] at hnone
  | resetPose =>
    simp only [step, Option.some.injEq] at hs
    subst hs
    cases hmod : s.model with
    | none =>
      intro _
      simp only [resetPose, hmod]
      exact hpose hmod
    | some m0 =>
      intro hnone
      simp [resetPose, hmod] at hnone
  | resetMotion =>
    simp only [step, Option.some.injEq] at hs
    subst hs
    cases hmod : s.model with
    | none =>
      obtain ⟨h1, h2⟩ := hpose hmod
      intro _
      simp [resetMotion, resetPose, unmap, hmod, h1, h2]
    | some m0 =>
      intro hnone
      simp [resetMotion, resetPose, unmap, hmod] at hnone
  | resetModel =>
    simp only [step, Option.some.injEq] at hs
    subst hs
    intro _
    simp [resetModel, unmap, BodyImp.reset]
  | reset =>
    simp only [step, Option.some.injEq] at hs
    subst hs
    intro _
    simp [reset, unmap, BodyImp.reset]
  | updateKey frame =>
    simp only [step] at hs
    rw [updateKey_eq ops slerp frame s (faceRemap_length_le s hinv)] at hs
    simp only [Option.some.injEq] at hs
    subst hs
    intro hnone
    have hnone1 : s.model = none := hnone
    obtain ⟨h1, h2⟩ := hpose hnone1
    have hf := (hinv.1 (Or.inl hnone1)).2
    exact ⟨by simp [hf, h1], h2⟩

/-- The invariant `Inv` only reads the model, the motion, the tables and the morph vector. -/
theorem inv_congr (s t : MotionImp A W) (h : s.Inv) (h1 : t.model = s.model)
    (h2 : t.motion = s.motion) (h3 : t.boneRemap = s.boneRemap)
    (h4 : t.faceRemap = s.faceRemap) (h5 : t.morph = s.morph) : t.Inv := by
  unfold Inv at h ⊢
  rw [h1, h2, h3, h4, h5]
  exact h

theorem stepSimulation_rigids_nil (bullet : BulletOps W) (tick : ℚ) (b : BodyImp W)
    (h : b.rigids = []) : (BodyImp.stepSimulation bullet tick b).rigids = [] := by
  simp [BodyImp.stepSimulation, h, forLoop, forFrom]

theorem poseInv_call (ops : ArmatureOps A) (bullet : BulletOps W)
    (slerp : Quat → Quat → ℚ → Quat) (eulerQuat : Vec3 → Quat) (s s1 : MotionImp A W)
    (c : MotionCall) (h : s.PoseInv)
    (hs : call ops bullet slerp eulerQuat s c = some s1) : s1.PoseInv := by
  cases c with
  | op o => exact poseInv_step ops bullet slerp s s1 o h hs
  | loadBody =>
    simp only [call, loadBody] at hs
    cases hmod : s.model with
    | none => simp [hmod] at hs
    | some m0 =>
      simp only [hmod] at hs
      cases hb : BodyImp.loadModel bullet eulerQuat m0 s.body with
      | none => simp [hb] at hs
      | some body =>
        simp only [hb, Option.some.injEq] at hs
        subst hs
        refine ⟨inv_congr s _ h.1 hmod.symm rfl rfl rfl rfl, ?_⟩
        intro hnone
        simp at hnone
  | resetPhysics =>
    simp only [call, Option.some.injEq] at hs
    subst hs
    refine ⟨h.1, ?_⟩
    intro hnone
    obtain ⟨h1, h2⟩ := h.2 hnone
    refine ⟨h1, ?_⟩
    show (BodyImp.resetPose s.body).rigids = []
    rw [resetPose_rigids, h2]
    rfl
  | updatePhysics tick =>
    simp only [call, updatePhysics] at hs
    cases hu : BodyImp.update ops bullet tick s.body s.armature with
    | none => simp [hu] at hs
    | some res =>
      simp only [hu, Option.some.injEq] at hs
      subst hs
      refine ⟨h.1, ?_⟩
      intro hnone
      obtain ⟨h1, h2⟩ := h.2 hnone
      refine ⟨h1, ?_⟩
      simp only [BodyImp.update] at hu
      cases hub : BodyImp.updateBone ops
          (BodyImp.stepSimulation bullet tick (BodyImp.applyBone ops s.armature s.body))
          s.armature with
      | none => simp [hub] at hu
      | some arm =>
        simp only [hub, Option.some.injEq] at hu
        subst hu
        apply stepSimulation_rigids_nil
        rw [applyBone_rigids, h2]
        rfl

/-- Every state reached by a sequence of public calls from a state satisfying the pose
invariant satisfies it. -/
theorem poseInv_runCalls (ops : ArmatureOps A) (bullet : BulletOps W)
    (slerp : Quat → Quat → ℚ → Quat) (eulerQuat : Vec3 → Quat) (calls : List MotionCall) :
    ∀ (s s1 : MotionImp A W), s.PoseInv →
      runCalls ops bullet slerp eulerQuat s calls = some s1 → s1.PoseInv := by
  induction calls with
  | nil =>
    intro s s1 h hs
    simp only [runCalls, Option.some.injEq] at hs
    subst hs
    exact h
  | cons c rest ih =>
    intro s s1 h hs
    simp only [runCalls] at hs
    cases hcall : call ops bullet slerp eulerQuat s c with
    | none => simp [hcall] at hs
    | some s2 =>
      rw [hcall] at hs
      exact ih s2 s1 (poseInv_call ops bullet slerp eulerQuat s s2 c h hcall) hs

end MotionImp

/-- C12: in every state reached from a freshly constructed `MotionImp` by the public
calls, `resetMotion` clears both remap tables, forgets the motion and resets the pose:
every morph weight becomes zero and every rigid binding gets its forces cleared and its
motion proxy set back to the bind pose `gl2bt(W0)`.  It leaves the model reference
unchanged, and of the body it changes nothing else: the number of bindings, each
binding's descriptor, shape, `W0`, `S0i` and `Ti`, the body's model pointer and the
physics world with its registrations stay as they were. -/
theorem resetMotion_keeps_bindings {A W : Type} (ops : ArmatureOps A) (bullet : BulletOps W)
    (slerp : Quat → Quat → ℚ → Quat) (eulerQuat : Vec3 → Quat) (a0 : A) (w0 : W)
    (calls : List MotionCall) (s : MotionImp A W)
    (hrun : MotionImp.runCalls ops bullet slerp eulerQuat (MotionImp.create a0 w0) calls =
      some s) :
    (MotionImp.resetMotion ops s).boneRemap = [] ∧
    (MotionImp.resetMotion ops s).faceRemap = [] ∧
    (MotionImp.resetMotion ops s).motion = none ∧
    (MotionImp.resetMotion ops s).model = s.model ∧
    (MotionImp.resetMotion ops s).morph = List.replicate s.morph.length 0 ∧
    (MotionImp.resetMotion ops s).body.rigids =
      s.body.rigids.map
        (fun rg => { rg with bt := rg.bt.clearForces, motion := gl2bt rg.W0 }) ∧
    (MotionImp.resetMotion ops s).body.rigids.length = s.body.rigids.length ∧
    (MotionImp.resetMotion ops s).body.world = s.body.world ∧
    (MotionImp.resetMotion ops s).body.model = s.body.model := by
  obtain ⟨hinv, hpose⟩ := MotionImp.poseInv_runCalls ops bullet slerp eulerQuat calls _ s
    (MotionImp.poseInv_create a0 w0) hrun
  cases hmod : s.model with
  | none =>
    obtain ⟨h1, h2⟩ := hpose hmod
    simp [MotionImp.resetMotion, MotionImp.resetPose, MotionImp.unmap, hmod, h1, h2]
  | some m =>
    have hlen := hinv.2.2 m hmod
    have hr := resetPose_rigids s.body
    have hw : (BodyImp.resetPose s.body).world = s.body.world := rfl
    have hbm : (BodyImp.resetPose s.body).model = s.body.model := rfl
    simp [MotionImp.resetMotion, MotionImp.resetPose, MotionImp.unmap, hmod, hlen, hr, hw,
      hbm]

/-- C12 after `loadModel(sampleModel)`, `loadBody()`, `loadMotion(sampleMotion)` and
`resetPhysics()` on a fresh `MotionImp`. -/
theorem resetMotion_keeps_bindings_witness :
    ∃ s : MotionImp (List (Int × Mat4)) Nat,
      MotionImp.runCalls recordingArmature idleBullet lerpQuat sampleEulerQuat
          (MotionImp.create [] 0)
          [.op (.loadModel sampleModel), .loadBody, .op (.loadMotion sampleMotion),
            .resetPhysics] = some s ∧
      s.body.rigids.length = 2 ∧ s.morph.length = 1 ∧
      (MotionImp.resetMotion recordingArmature s).boneRemap = [] ∧
      (MotionImp.resetMotion recordingArmature s).faceRemap = [] ∧
      (MotionImp.resetMotion recordingArmature s).motion = none ∧
      (MotionImp.resetMotion recordingArmature s).model = s.model ∧
      (MotionImp.resetMotion recordingArmature s).morph = List.replicate s.morph.length 0 ∧
      (MotionImp.resetMotion recordingArmature s).body.rigids =
        s.body.rigids.map
          (fun rg => { rg with bt := rg.bt.clearForces, motion := gl2bt rg.W0 }) ∧
      (MotionImp.resetMotion recordingArmature s).body.rigids.length = s.body.rigids.length ∧
      (MotionImp.resetMotion recordingArmature s).body.world = s.body.world ∧
      (MotionImp.resetMotion recordingArmature s).body.model = s.body.model :=
  ⟨_, rfl, rfl, rfl,
    resetMotion_keeps_bindings recordingArmature idleBullet lerpQuat sampleEulerQuat [] 0
      [.op (.loadModel sampleModel), .loadBody, .op (.loadMotion sampleMotion),
        .resetPhysics] _ rfl⟩

/-! ### `updateKey` in every reachable state -/

/-- C5: in every state reached from a fresh `MotionImp` by the public calls, the
physics-side ones included, in which a model `m` and a motion `v` are loaded, and for
every query frame, `updateKey` does not fail; it applies one local transform per model
bone, in bone order, before the IK solve, and the transform of every bone whose name has
no channel in `v`, or an empty one, is the identity; every morph whose name has no
channel, or an empty one, gets weight `0`. -/
theorem updateKey_defaults_unmatched {A W : Type} (ops : ArmatureOps A) (bullet : BulletOps W)
    (slerp : Quat → Quat → ℚ → Quat) (eulerQuat : Vec3 → Quat) (a0 : A) (w0 : W)
    (calls : List MotionCall) (s : MotionImp A W) (m : pmx.Model) (v : vmd.Motion) (frame : ℚ)
    (hrun : MotionImp.runCalls ops bullet slerp eulerQuat (MotionImp.create a0 w0) calls =
      some s)
    (hm : s.model = some m) (hv : s.motion = some v) :
    ∃ (ts : List Mat4) (s1 : MotionImp A W),
      MotionImp.updateKey ops slerp frame s = some s1 ∧
      ts.length = m.bones.length ∧
      s1.armature = ops.solveIK (applyLocals ops s.armature 0 ts) ∧
      (∀ (i : Nat) (bone : pmx.Bone), m.bones[i]? = some bone →
        (v.bones bone.name = none ∨ v.bones bone.name = some []) → ts[i]? = some 1) ∧
      s1.morph.length = m.morphs.length ∧
      (∀ (i : Nat) (mo : pmx.Morph), m.morphs[i]? = some mo →
        (v.faces mo.name = none ∨ v.faces mo.name = some []) → s1.morph[i]? = some 0) := by
  have hinv := (MotionImp.poseInv_runCalls ops bullet slerp eulerQuat calls _ s
    (MotionImp.poseInv_create a0 w0) hrun).1
  have hlen := MotionImp.faceRemap_length_le s hinv
  obtain ⟨_, h2, h3⟩ := hinv
  obtain ⟨hb, hf⟩ := h2 m v hm hv
  have hml := h3 m hm
  have hfl : s.faceRemap.length = m.morphs.length := by simp [hf, remapTable]
  refine ⟨s.boneRemap.map (boneSample slerp frame), _, updateKey_eq ops slerp frame s hlen,
    by simp [hb, remapTable], rfl, ?_, ?_, ?_⟩
  · intro i bone hi hnone
    simp only [hb, remapTable, List.getElem?_map, hi, Option.map_some', boneSample]
    rw [getFrame_default _ frame toMat4 (interBone slerp) 1 hnone]
    rfl
  · simp only [List.length_append, List.length_map, List.length_drop]
    omega
  · intro i mo hi hnone
    have hil : i < m.morphs.length := (List.getElem?_eq_some_iff.mp hi).1
    show (s.faceRemap.map (faceSample frame) ++ s.morph.drop s.faceRemap.length)[i]? = some 0
    rw [List.getElem?_append_left (by rw [List.length_map, hfl]; exact hil)]
    simp only [hf, remapTable, List.getElem?_map, hi, Option.map_some', faceSample]
    rw [getFrame_default _ frame toFloat interFace 0 hnone]
    rfl

/-- C5 after `loadModel(sampleModel)`, `loadBody()`, `loadMotion(sampleMotion)` and
`updatePhysics(1/120)` on a fresh `MotionImp`, at query frame 5: the body holds two
bindings and bone `root` has no channel in the motion. -/
theorem updateKey_defaults_unmatched_witness :
    ∃ s : MotionImp (List (Int × Mat4)) Nat,
      MotionImp.runCalls recordingArmature idleBullet lerpQuat sampleEulerQuat
          (MotionImp.create [] 0)
          [.op (.loadModel sampleModel), .loadBody, .op (.loadMotion sampleMotion),
            .updatePhysics (1 / 120)] = some s ∧
      s.body.rigids.length = 2 ∧ sampleMotion.bones "root" = none ∧
      ∃ (ts : List Mat4) (s1 : MotionImp (List (Int × Mat4)) Nat),
        MotionImp.updateKey recordingArmature lerpQuat 5 s = some s1 ∧
        ts.length = sampleModel.bones.length ∧
        s1.armature = recordingArmature.solveIK (applyLocals recordingArmature s.armature 0 ts) ∧
        (∀ (i : Nat) (bone : pmx.Bone), sampleModel.bones[i]? = some bone →
          (sampleMotion.bones bone.name = none ∨ sampleMotion.bones bone.name = some []) →
          ts[i]? = some 1) ∧
        s1.morph.length = sampleModel.morphs.length ∧
        (∀ (i : Nat) (mo : pmx.Morph), sampleModel.morphs[i]? = some mo →
          (sampleMotion.faces mo.name = none ∨ sampleMotion.faces mo.name = some []) →
          s1.morph[i]? = some 0) :=
  ⟨_, rfl, rfl, by decide,
    updateKey_defaults_unmatched recordingArmature idleBullet lerpQuat sampleEulerQuat [] 0
      [.op (.loadModel sampleModel), .loadBody, .op (.loadMotion sampleMotion),
        .updatePhysics (1 / 120)] _ sampleModel sampleMotion 5 rfl rfl rfl⟩

/-! ### Bind-pose round trip -/

theorem map_set_of_eq {α β : Type} (f : α → β) (xs : List α) (i : Nat) (x y : α)
    (hx : xs[i]? = some x) (hf : f y = f x) : (xs.set i y).map f = xs.map f := by
  apply List.ext_getElem?
  intro j
  rw [List.getElem?_map, List.getElem?_map, List.getElem?_set]
  by_cases hij : i = j
  · subst hij
    have hi : i < xs.length := (List.getElem?_eq_some_iff.mp hx).1
    simp [hi, hx, hf]
  · simp [hij]

/-- A loop preserves every property that its body preserves. -/
theorem forFrom_preserves {σ : Type} (P : σ → Prop) (body : Nat → σ → σ)
    (hbody : ∀ i s, P s → P (body i s)) :
    ∀ (k i : Nat) (s : σ), P s → P (forFrom body k i s) := by
  intro k
  induction k with
  | zero =>
    intro i s h
    exact h
  | succ k ih =>
    intro i s h
    exact ih (i + 1) (body i s) (hbody i s h)

theorem sameBindings_refl {W : Type} (b : BodyImp W) : SameBindings b b := rfl

theorem sameBindings_trans {W : Type} (b1 b2 b3 : BodyImp W) (h12 : SameBindings b1 b2)
    (h23 : SameBindings b2 b3) : SameBindings b1 b3 := by
  unfold SameBindings at *
  rw [h23, h12]

/-- The kinematic push changes only motion proxies. -/
theorem applyBone_sameBindings {A W : Type} (ops : ArmatureOps A) (arm : A) (b : BodyImp W) :
    SameBindings b (BodyImp.applyBone ops arm b) := by
  unfold SameBindings
  rw [applyBone_rigids, List.map_map]
  apply List.map_congr_left
  intro rg _
  simp only [Function.comp, Rigid.bindData]
  split <;> rfl

/-- The solver step, whatever the solver does, changes only Bullet bodies and motion
proxies. -/
theorem stepSimulation_sameBindings {W : Type} (bullet : BulletOps W) (tick : ℚ)
    (b : BodyImp W) : SameBindings b (BodyImp.stepSimulation bullet tick b) := by
  unfold SameBindings
  simp only [BodyImp.stepSimulation, forLoop]
  refine forFrom_preserves
    (fun rigids : List Rigid => rigids.map Rigid.bindData = b.rigids.map Rigid.bindData)
    _ ?_ _ _ _ rfl
  · intro i rigids h
    cases hrg : rigids[i]? with
    | none => simpa [hrg] using h
    | some rg =>
      cases hout : (bullet.stepSimulation b.world tick maxSubstep frequency
          (b.rigids.map fun rg => (rg.bt, rg.motion))).2[i]? with
      | none => simpa [hrg, hout] using h
      | some out =>
        simp only [hrg, hout]
        rw [map_set_of_eq Rigid.bindData rigids i rg
          { rg with bt := out.1, motion := out.2 } hrg rfl]
        exact h

/-- A whole `update(tick)` changes only Bullet bodies and motion proxies. -/
theorem update_sameBindings {A W : Type} (ops : ArmatureOps A) (bullet : BulletOps W)
    (tick : ℚ) (b b2 : BodyImp W) (arm arm2 : A)
    (h : BodyImp.update ops bullet tick b arm = some (b2, arm2)) : SameBindings b b2 := by
  simp only [BodyImp.update] at h
  cases hub : BodyImp.updateBone ops
      (BodyImp.stepSimulation bullet tick (BodyImp.applyBone ops arm b)) arm with
  | none => simp [hub] at h
  | some arm1 =>
    simp only [hub, Option.some.injEq, Prod.mk.injEq] at h
    rw [← h.1]
    exact sameBindings_trans _ _ _ (applyBone_sameBindings ops arm b)
      (stepSimulation_sameBindings bullet tick _)

theorem withProxies_sameBindings {W : Type} (b : BodyImp W) (t : BtTransform) :
    SameBindings b (b.withProxies t) := by
  unfold SameBindings BodyImp.withProxies
  rw [List.map_map]
  rfl

/-- C11: bind-pose round trip.  On a model all of whose descriptors are loadable,
`BodyImp::loadModel` succeeds.  Every `update(tick)`, with any armature and any solver,
leaves the bindings it loaded, changing only Bullet bodies and motion proxies.  And for
every body that holds these bindings, wherever its motion proxies have moved, after
`resetPose` there is one binding per descriptor and, for every descriptor, the world
transform read back from the binding's motion proxy, converted with `bt2gl`, equals the
binding's `W0 = translate(descriptor position) * mat4_cast(quat(descriptor rotation))`. -/
theorem bind_pose_round_trip {A W : Type} (ops : ArmatureOps A) (bullet : BulletOps W)
    (eulerQuat : Vec3 → Quat) (model : pmx.Model) (b : BodyImp W)
    (hwf : ∀ base ∈ model.rigids, Loadable model base) :
    ∃ b1 : BodyImp W, BodyImp.loadModel bullet eulerQuat model b = some b1 ∧
      (∀ (tick : ℚ) (b2 b3 : BodyImp W) (arm arm2 : A), SameBindings b1 b2 →
        BodyImp.update ops bullet tick b2 arm = some (b3, arm2) → SameBindings b1 b3) ∧
      ∀ b2 : BodyImp W, SameBindings b1 b2 →
        (BodyImp.resetPose b2).rigids.length = model.rigids.length ∧
        ∀ (i : Nat) (base : pmx.Rigid), model.rigids[i]? = some base →
          ∃ rg : Rigid, (BodyImp.resetPose b2).rigids[i]? = some rg ∧ rg.base = base ∧
            rg.W0 = translate base.position * mat4_cast (eulerQuat base.rotation) ∧
            bt2gl rg.motion = rg.W0 := by
  obtain ⟨b1, hload⟩ := loadModel_total bullet eulerQuat model b hwf
  refine ⟨b1, hload, ?_, ?_⟩
  · intro tick b2 b3 arm arm2 h12 hup
    exact sameBindings_trans _ _ _ h12 (update_sameBindings ops bullet tick b2 b3 arm arm2 hup)
  · intro b2 hsame
    obtain ⟨h1, h2, _, _⟩ := loadModel_some bullet eulerQuat model b b1 hload
    have hlen : b2.rigids.length = b1.rigids.length := by
      have := congrArg List.length hsame
      simpa using this
    rw [resetPose_rigids]
    refine ⟨by rw [List.length_map, hlen, h1], ?_⟩
    intro i base hbase
    have hi1 : i < b1.rigids.length := by
      rw [h1]
      exact (List.getElem?_eq_some_iff.mp hbase).1
    have hi2 : i < b2.rigids.length := by omega
    have hrg1 : b1.rigids[i]? = some b1.rigids[i] := List.getElem?_eq_getElem hi1
    have hrg2 : b2.rigids[i]? = some b2.rigids[i] := List.getElem?_eq_getElem hi2
    have hdata : Rigid.bindData b2.rigids[i] = Rigid.bindData b1.rigids[i] := by
      have := congrArg (fun l => l[i]?) hsame
      simpa [List.getElem?_map, hrg1, hrg2] using this
    simp only [Rigid.bindData, Prod.mk.injEq] at hdata
    obtain ⟨hbase2, hW2, _, _⟩ := hdata
    obtain ⟨l1, l2, _, _, _, _⟩ := load_some bullet eulerQuat model i _ (h2 i _ hrg1)
    rw [hbase, Option.some.injEq] at l1
    have hget : (b2.rigids.map
        (fun rg => { rg with bt := rg.bt.clearForces, motion := gl2bt rg.W0 }))[i]? =
        some { b2.rigids[i] with bt := b2.rigids[i].bt.clearForces
                                 motion := gl2bt b2.rigids[i].W0 } := by
      rw [List.getElem?_map, hrg2]
      rfl
    refine ⟨_, hget, ?_, ?_, ?_⟩
    · show b2.rigids[i].base = base
      rw [hbase2, ← l1]
    · show b2.rigids[i].W0 = _
      rw [hW2, l2, l1]
    · show bt2gl (gl2bt b2.rigids[i].W0) = b2.rigids[i].W0
      rw [hW2, l2, bt2gl_gl2bt_bind]

/-- C11 at the sample model over the idle solver, for the loaded body with every motion
proxy moved to the origin `(0, -5, 0)`: both descriptors sit at `(0, 1, 0)`, and
`resetPose` brings the proxies back there. -/
theorem bind_pose_round_trip_witness :
    (∀ base ∈ sampleModel.rigids, Loadable sampleModel base) ∧
    ∃ b1 : BodyImp Nat,
      BodyImp.loadModel idleBullet sampleEulerQuat sampleModel ⟨none, [], 0⟩ = some b1 ∧
      (∀ rg ∈ (b1.withProxies ⟨1, ![0, -5, 0]⟩).rigids, rg.motion.origin = ![0, -5, 0]) ∧
      (BodyImp.resetPose (b1.withProxies ⟨1, ![0, -5, 0]⟩)).rigids.length =
        sampleModel.rigids.length ∧
      ∀ (i : Nat) (base : pmx.Rigid), sampleModel.rigids[i]? = some base →
        ∃ rg : Rigid,
          (BodyImp.resetPose (b1.withProxies ⟨1, ![0, -5, 0]⟩)).rigids[i]? = some rg ∧
          rg.base = base ∧
          rg.W0 = translate base.position * mat4_cast (sampleEulerQuat base.rotation) ∧
          bt2gl rg.motion = rg.W0 := by
  obtain ⟨b1, hload, _, hreset⟩ :=
    bind_pose_round_trip recordingArmature idleBullet sampleEulerQuat sampleModel
      ⟨none, [], 0⟩ sampleModel_loadable
  obtain ⟨hlen, hall⟩ := hreset (b1.withProxies ⟨1, ![0, -5, 0]⟩)
    (withProxies_sameBindings b1 _)
  refine ⟨sampleModel_loadable, b1, hload, ?_, hlen, hall⟩
  intro rg hrg
  simp only [BodyImp.withProxies, List.mem_map] at hrg
  obtain ⟨r, _, hr⟩ := hrg
  rw [← hr]

end MmdPhysics
